import Mathlib

/-!
# libfb `utility.c`: CRC-16, little-endian packing and MAC parsing

A shallow embedding of the functions `crc_16`, `store32`, `grab32`, `grab16`,
`store16`, `fprint_mac` and `parse_mac` of `src/libfb/utility.c`, and of the
CRC algorithm as section 4.1 of the specification words it, followed by
theorems about them.

Conventions of the embedding.

* A C buffer is a `List Nat` of bytes; reading a cell stores it into an
  `unsigned char`, so the value is reduced modulo 256 at the read.
* `unsigned short` and `unsigned char` variables are naturals reduced modulo
  `65536` and `256` at every assignment, which is where C truncates the
  promoted `int` value.
* A loop whose trip count is a constant of the source (`bit < 8`, `bit < 16`,
  `x < 6`) is unrolled by structural recursion on the number of rounds left.
  The loop `for (i = 0; i < len; i++)` of `crc_16` has no such bound (its
  counter is a 16-bit variable compared with an `int`), so it is driven by a
  fuel argument and reports `Run.outOfFuel` when the fuel is exhausted.
* An access outside a buffer is reported as `Run.fault` / `none`.
-/

namespace Libfb

/-- Result of running a loop of the source with a given amount of fuel. -/
inductive Run (α : Type) where
  | done (a : α)
  | fault
  | outOfFuel
deriving DecidableEq

/-! ## `crc_16` (utility.c, lines 71-112) -/

/-- The inner loop `for (bit = 0; bit < 8; bit++)` of `crc_16`, lines 86-98.
The first argument is the number of rounds left (8 on entry), `align` is the
mask that starts at `0x80`, `crc` is the `unsigned short` register.
`CRCPOLY` is a macro of the missing header `fb_lib.h` and is a parameter. -/
def crc_16_bits (CRCPOLY slice : Nat) : Nat → Nat → Nat → Nat
  | 0, _, crc => crc
  | n + 1, align, crc =>
    let xor := if crc &&& 0x8000 ≠ 0 then 1 else 0
    let crc := (crc <<< 1) % 65536
    let crc := if slice &&& align ≠ 0 then (crc + 1) % 65536 else crc
    let crc := if xor ≠ 0 then (crc ^^^ CRCPOLY) % 65536 else crc
    crc_16_bits CRCPOLY slice n ((align >>> 1) % 256) crc

/-- The flush loop `for (bit = 0; bit < 16; bit++)` of `crc_16`, lines 101-110.
The first argument is the number of rounds left (16 on entry). -/
def crc_16_flush (CRCPOLY : Nat) : Nat → Nat → Nat
  | 0, crc => crc
  | n + 1, crc =>
    let xor := if crc &&& 0x8000 ≠ 0 then 1 else 0
    let crc := (crc <<< 1) % 65536
    let crc := if xor ≠ 0 then (crc ^^^ CRCPOLY) % 65536 else crc
    crc_16_flush CRCPOLY n crc

/-- The outer loop `for (i = 0; i < len; i++)` of `crc_16`, lines 82-99.
`i` is the `unsigned short` counter: it is promoted to `int` for the
comparison with `len` and wraps modulo 65536 at `i++`. One unit of fuel is
spent for every evaluation of the guard. -/
def crc_16_loop (CRCPOLY : Nat) (buf : List Nat) (len : Int) : Nat → Nat → Nat → Run Nat
  | 0, _, _ => Run.outOfFuel
  | fuel + 1, i, crc =>
    if (i : Int) < len then
      match buf[i]? with
      | none => Run.fault
      | some b =>
        crc_16_loop CRCPOLY buf len fuel ((i + 1) % 65536)
          (crc_16_bits CRCPOLY (b % 256) 8 0x80 crc)
    else Run.done crc

/-- The function `crc_16 (buf, len)`: register initialised to `0xFFFF`, the
message loop, then the flush loop. -/
def crc_16 (fuel CRCPOLY : Nat) (buf : List Nat) (len : Int) : Run Nat :=
  match crc_16_loop CRCPOLY buf len fuel 0 0xFFFF with
  | Run.done crc => Run.done (crc_16_flush CRCPOLY 16 crc)
  | Run.fault => Run.fault
  | Run.outOfFuel => Run.outOfFuel

/-! ## `store32`, `grab32`, `grab16`, `store16` (utility.c, lines 175-213)

The operands of `|` and `<<` in `grab32` and `grab16` are `u_int8_t` cells
promoted to a 32-bit `int`; they are modelled as mathematical integers, with
the result of `<<` wrapped to the two's complement range `[-2^31, 2^31)`.
ISO C leaves a shift of a one into the sign bit undefined; GCC and Clang
define it as this wrap, which is the behaviour modelled here. The conversion
of the `int` result to the unsigned return type is the reduction modulo
`2^32` (respectively `2^16`). -/

/-- The value a mathematical integer takes in a 32-bit two's complement
`int`: the representative of `x` modulo `2^32` in `[-2^31, 2^31)`. -/
def int32_wrap (x : Int) : Int :=
  if x % 2 ^ 32 < 2 ^ 31 then x % 2 ^ 32 else x % 2 ^ 32 - 2 ^ 32

/-- Left shift `x << k` in `int`. -/
def int32_shl (x : Int) (k : Nat) : Int := int32_wrap (x * 2 ^ k)

/-- `store32 (val, dst)`, lines 175-182: `val` is a `u_int32_t`, every
assignment to a `u_int8_t` cell keeps the low 8 bits. Writing needs the four
cells `dst[0..3]`. -/
def store32 (val : Nat) (dst : List Nat) : Option (List Nat) :=
  if 4 ≤ dst.length then
    let val := val % 2 ^ 32
    let dst := dst.set 0 ((val &&& 0xff) % 256)
    let dst := dst.set 1 ((val >>> 8) % 256)
    let dst := dst.set 2 ((val >>> 16) % 256)
    let dst := dst.set 3 ((val >>> 24) % 256)
    some dst
  else none

/-- `grab32 (src)`, lines 188-192:
`(src[0] & 0xff) | (src[1] << 8) | (src[2] << 16) | (src[3] << 24)`
evaluated in `int` and converted to `u_int32_t`. -/
def grab32 (src : List Nat) : Option Nat :=
  match src with
  | s0 :: s1 :: s2 :: s3 :: _ =>
    let b0 : Int := ((s0 % 256 : Nat) : Int)
    let b1 : Int := ((s1 % 256 : Nat) : Int)
    let b2 : Int := ((s2 % 256 : Nat) : Int)
    let b3 : Int := ((s3 % 256 : Nat) : Int)
    let r : Int :=
      Int.lor (Int.lor (Int.lor (Int.land b0 0xff) (int32_shl b1 8)) (int32_shl b2 16))
        (int32_shl b3 24)
    some (r % 2 ^ 32).toNat
  | _ => none

/-- `grab16 (src)`, lines 198-202: `(src[0] & 0xff) | (src[1] << 8)` evaluated
in `int` and converted to `u_int16_t`. -/
def grab16 (src : List Nat) : Option Nat :=
  match src with
  | s0 :: s1 :: _ =>
    let b0 : Int := ((s0 % 256 : Nat) : Int)
    let b1 : Int := ((s1 % 256 : Nat) : Int)
    let r : Int := Int.lor (Int.land b0 0xff) (int32_shl b1 8)
    some (r % 2 ^ 16).toNat
  | _ => none

/-- `store16 (val, dst)`, lines 208-213: `val` is a `u_int16_t`, every
assignment to a `u_int8_t` cell keeps the low 8 bits. Writing needs the two
cells `dst[0..1]`. -/
def store16 (val : Nat) (dst : List Nat) : Option (List Nat) :=
  if 2 ≤ dst.length then
    let val := val % 2 ^ 16
    let dst := dst.set 0 ((val &&& 0xff) % 256)
    let dst := dst.set 1 ((val >>> 8) % 256)
    some dst
  else none

/-! ## `fprint_mac` and `parse_mac` (utility.c, lines 25-30 and 124-152)

A C string is the `List Char` of its characters before the terminating NUL.
The library functions `isspace`, `strtol`, `sscanf` and the `%02x` conversion
of `fprintf` are not part of the repository; they are modelled after ISO C
(7.4.1.10, 7.20.1.4, 7.19.6.2, 7.19.6.1) for the one way `parse_mac` and
`fprint_mac` call them. -/

/-- The terminating character of a C string. -/
def NUL : Char := Char.ofNat 0

/-- `isspace` in the "C" locale: space, `\t`, `\n`, `\v`, `\f`, `\r`. -/
def isspace (c : Char) : Bool :=
  c.toNat = 32 || (9 ≤ c.toNat && c.toNat ≤ 13)

/-- The value of a hexadecimal digit, `none` for any other character. -/
def hexval (c : Char) : Option Nat :=
  if 48 ≤ c.toNat ∧ c.toNat ≤ 57 then some (c.toNat - 48)
  else if 97 ≤ c.toNat ∧ c.toNat ≤ 102 then some (c.toNat - 97 + 10)
  else if 65 ≤ c.toNat ∧ c.toNat ≤ 70 then some (c.toNat - 65 + 10)
  else none

/-- The hexadecimal digit of `n % 16`, in upper case for `upper = true`
(`%X`) and lower case otherwise (`%x`). -/
def hexdigit (upper : Bool) (n : Nat) : Char :=
  if n % 16 < 10 then Char.ofNat (48 + n % 16)
  else if upper then Char.ofNat (65 + (n % 16 - 10))
  else Char.ofNat (97 + (n % 16 - 10))

/-- The first character `%02x` (or `%02X`) prints for the `unsigned char` `m`:
the digit of its high four bits. -/
def hex_hi (upper : Bool) (m : Nat) : Char := hexdigit upper (m % 256 / 16)

/-- The second character `%02x` (or `%02X`) prints for the `unsigned char` `m`:
the digit of its low four bits. -/
def hex_lo (upper : Bool) (m : Nat) : Char := hexdigit upper (m % 256)

/-- The text `HH:HH:HH:HH:HH:HH` for six bytes; `up k` is the case of the
digit at position `k` (0 to 11) among the twelve digits. -/
def colon_text (up : Nat → Bool) (m0 m1 m2 m3 m4 m5 : Nat) : List Char :=
  [hex_hi (up 0) m0, hex_lo (up 1) m0, ':', hex_hi (up 2) m1, hex_lo (up 3) m1, ':',
   hex_hi (up 4) m2, hex_lo (up 5) m2, ':', hex_hi (up 6) m3, hex_lo (up 7) m3, ':',
   hex_hi (up 8) m4, hex_lo (up 9) m4, ':', hex_hi (up 10) m5, hex_lo (up 11) m5]

/-- The text `HHHHHHHHHHHH` for six bytes, without colons. -/
def plain_text (up : Nat → Bool) (m0 m1 m2 m3 m4 m5 : Nat) : List Char :=
  [hex_hi (up 0) m0, hex_lo (up 1) m0, hex_hi (up 2) m1, hex_lo (up 3) m1,
   hex_hi (up 4) m2, hex_lo (up 5) m2, hex_hi (up 6) m3, hex_lo (up 7) m3,
   hex_hi (up 8) m4, hex_lo (up 9) m4, hex_hi (up 10) m5, hex_lo (up 11) m5]

/-- `fprint_mac (output, mac)`, lines 25-30: the characters written by
`fprintf (output, "%02x:%02x:%02x:%02x:%02x:%02x\n", mac[0], ..., mac[5])`.
Reading needs the six cells `mac[0..5]`. -/
def fprint_mac (mac : List Nat) : Option (List Char) :=
  match mac with
  | m0 :: m1 :: m2 :: m3 :: m4 :: m5 :: _ =>
    some (colon_text (fun _ => false) m0 m1 m2 m3 m4 m5 ++ ['\n'])
  | _ => none

/-- `LONG_MAX` of an LP64 platform; only the clamping of `strtol` on 16 or
more significant digits depends on it. -/
def LONG_MAX : Int := 2 ^ 63 - 1

/-- The number denoted by the longest run of hexadecimal digits at the head of
the input, continuing the accumulated value `acc`. -/
def hex_digits_value : List Char → Nat → Nat
  | [], acc => acc
  | c :: t, acc =>
    match hexval c with
    | some v => hex_digits_value t (16 * acc + v)
    | none => acc

/-- `strtol (s, NULL, 16)` on the characters `s` found before the first NUL:
white space is skipped, then an optional sign, then an optional `0x`/`0X`
that a digit follows, then the longest run of hexadecimal digits; no digit
gives 0, a value out of range is clamped. -/
def strtol16 (s : List Char) : Int :=
  let s := s.dropWhile isspace
  let neg := s.head? = some '-'
  let s := if s.head? = some '-' ∨ s.head? = some '+' then s.tail else s
  let s :=
    if s.head? = some '0' ∧ (s.tail.head? = some 'x' ∨ s.tail.head? = some 'X') ∧
        (s.tail.tail.head?.bind hexval).isSome
    then s.tail.tail else s
  let n : Int := (hex_digits_value s 0 : Nat)
  if neg then max (-n) (-LONG_MAX - 1) else min n LONG_MAX

/-- The character `src_mac[y]` of a C string: a character of the text, the
terminating NUL at `y = length`, and no cell beyond. -/
def read_char (s : List Char) (y : Nat) : Option Char :=
  if y < s.length then s[y]? else if y = s.length then some NUL else none

/-- The loop `for (x = 0, y = 0; x < 6; x++)` of `parse_mac`, lines 135-140.
The first argument is the number of rounds left (6 on entry). `hex` is a
`char[2]` that holds no terminator, so `strtol (hex, NULL, 16)` goes on
reading the memory that follows the array: `after_hex x` is that memory in
round `x`. The assignment to `dst_mac[x]` keeps the low 8 bits. -/
def parse_mac_loop (src_mac : List Char) (after_hex : Nat → List Char) :
    Nat → Nat → Nat → List Nat → Option (List Nat)
  | 0, _, _, dst_mac => some dst_mac
  | n + 1, x, y, dst_mac =>
    match read_char src_mac y, read_char src_mac (y + 1) with
    | some hex0, some hex1 =>
      if x < dst_mac.length then
        let v := strtol16 ((hex0 :: hex1 :: after_hex x).takeWhile (fun c => c ≠ NUL))
        parse_mac_loop src_mac after_hex n (x + 1) (y + 2) (dst_mac.set x (v % 256).toNat)
      else none
    | _, _ => none

/-- Outcome of one `%2hhX` conversion of `sscanf`. -/
inductive Scan where
  | ok (v : Int) (rest : List Char)
  | matching_failure
  | input_failure

/-- One conversion `%2hhX` on input whose leading white space has been skipped:
the input item is the longest sequence of at most two characters that is a
prefix of an optionally signed hexadecimal number with optional `0x`; an item
without a digit is a matching failure, the end of the input an input
failure. The item `0x` is a matching failure by ISO C, while some C
libraries convert it to 0: the theorems below only use inputs that start
with a hexadecimal digit pair or with a character that is no digit, sign or
white space, where the two agree. -/
def scan_hex2 (s : List Char) : Scan :=
  match s with
  | [] => Scan.input_failure
  | c :: t =>
    if c = '+' ∨ c = '-' then
      match t with
      | [] => Scan.matching_failure
      | d :: t2 =>
        match hexval d with
        | some v => Scan.ok (if c = '-' then -(v : Int) else (v : Int)) t2
        | none => Scan.matching_failure
    else
      match hexval c with
      | none => Scan.matching_failure
      | some v1 =>
        match t with
        | [] => Scan.ok v1 []
        | d :: t2 =>
          if c = '0' ∧ (d = 'x' ∨ d = 'X') then Scan.matching_failure
          else
            match hexval d with
            | some v2 => Scan.ok ((16 * v1 + v2 : Nat) : Int) t2
            | none => Scan.ok v1 (d :: t2)

/-- The value `EOF` that `sscanf` returns. -/
def EOF : Int := -1

/-- The call `sscanf (src_mac, "%2hhX:%2hhX:%2hhX:%2hhX:%2hhX:%2hhX",
&dst_mac[0], ..., &dst_mac[5])`, lines 145-147. The first argument is the
number of conversions left (6 on entry), `k` the number already assigned.
Each converted value is stored into the `unsigned char` `dst_mac[k]`; between
two conversions the input must continue with `:`. The result is the number
of assigned items, or `EOF` when the input ends before the first one. -/
def sscanf_mac : Nat → Nat → List Char → List Nat → Option (Int × List Nat)
  | 0, k, _, dst_mac => some ((k : Int), dst_mac)
  | n + 1, k, inp, dst_mac =>
    match scan_hex2 (inp.dropWhile isspace) with
    | Scan.input_failure => some (if k = 0 then EOF else (k : Int), dst_mac)
    | Scan.matching_failure => some ((k : Int), dst_mac)
    | Scan.ok v rest =>
      if k < dst_mac.length then
        let dst_mac := dst_mac.set k (v % 256).toNat
        if n = 0 then some ((k : Int) + 1, dst_mac)
        else
          match rest with
          | c :: rest2 =>
            if c = ':' then sscanf_mac n (k + 1) rest2 dst_mac
            else some ((k : Int) + 1, dst_mac)
          | [] => some ((k : Int) + 1, dst_mac)
      else none

/-- `parse_mac (src_mac, dst_mac)`, lines 124-152: the returned `int` and the
destination buffer afterwards, `none` when a cell outside `src_mac` or
`dst_mac` is accessed. `after_hex` is the memory after the array `hex` (see
`parse_mac_loop`). -/
def parse_mac (src_mac : List Char) (dst_mac : List Nat) (after_hex : Nat → List Char) :
    Option (Int × List Nat) :=
  if ¬ (':' ∈ src_mac) then
    if read_char src_mac 0 = some '\n' then some (-1, dst_mac)
    else
      match parse_mac_loop src_mac after_hex 6 0 0 dst_mac with
      | some dst_mac => some (0, dst_mac)
      | none => none
  else
    match sscanf_mac 6 0 src_mac dst_mac with
    | some (result, dst_mac) => some (if result = 6 then 0 else result, dst_mac)
    | none => none

/-- The register after the message loop has consumed the bytes `msg` in order,
starting from register `crc`: the fold of the loop body of lines 84-98. For
lengths the 16-bit counter can reach, `crc_16_loop` computes this fold
(`crc_16_loop_eq`). -/
def crc_16_message (CRCPOLY crc : Nat) (msg : List Nat) : Nat :=
  msg.foldl (fun crc b => crc_16_bits CRCPOLY (b % 256) 8 0x80 crc) crc

/-- The bytes of the check string "123456789". -/
def check_123456789 : List Nat := [0x31, 0x32, 0x33, 0x34, 0x35, 0x36, 0x37, 0x38, 0x39]

/-- One round of the body shared by the two bit loops of `crc_16`: lines 88-96
with the message bit `msgbit` (`slice & align` non-zero), and lines 103-109,
which insert no bit, for `msgbit = false`. -/
def crc_16_round (CRCPOLY crc : Nat) (msgbit : Bool) : Nat :=
  let xor := if crc &&& 0x8000 ≠ 0 then 1 else 0
  let crc := (crc <<< 1) % 65536
  let crc := if msgbit then (crc + 1) % 65536 else crc
  let crc := if xor ≠ 0 then (crc ^^^ CRCPOLY) % 65536 else crc
  crc

/-- The eight message bits of a byte in the order the inner loop tests them:
the mask `align` runs from `0x80` down to `0x01`. -/
def byte_bits (slice : Nat) : List Bool :=
  [slice.testBit 7, slice.testBit 6, slice.testBit 5, slice.testBit 4,
   slice.testBit 3, slice.testBit 2, slice.testBit 1, slice.testBit 0]

/-- The message bits of a buffer in the order `crc_16` consumes them. -/
def message_bits (msg : List Nat) : List Bool := msg.flatMap byte_bits

/-- The buffer `b` with its bit `k` flipped: bit `k % 8`, counted from the most
significant one, of the byte at index `k / 8`. -/
def flip_bit (b : List Nat) (k : Nat) : List Nat :=
  b.set (k / 8) (b.getD (k / 8) 0 ^^^ (0x80 >>> (k % 8)))

/-! ### The algorithm of the specification (spec.md, section 4.1)

These definitions follow the words of the specification, not the source: a
16-bit register, masked with `0xFFFF` after each shift, bit 0 set with an OR.
They are compared with `crc_16` in the theorems. -/

/-- Spec 4.1, steps 2a-2d, one message bit: record the top bit (bit 15) as
`carry`, shift left by one and mask to 16 bits, set bit 0 when the message
bit is 1, exclusive-or with the polynomial when `carry` was set. -/
def spec_crc16_round (polynomial register : Nat) (msgbit : Bool) : Nat :=
  let carry := register.testBit 15
  let register := (register <<< 1) &&& 0xFFFF
  let register := if msgbit then register ||| 1 else register
  let register := if carry then register ^^^ polynomial else register
  register

/-- Spec 4.1, step 2, one byte: its 8 bits from most-significant to
least-significant. -/
def spec_crc16_byte (polynomial register byte : Nat) : Nat :=
  (List.range 8).foldl
    (fun register k => spec_crc16_round polynomial register (byte.testBit (7 - k))) register

/-- Spec 4.1, `crc16 (buffer, polynomial)`: register initialised to `0xFFFF`,
every byte of the buffer, then 16 additional rounds with no new input bit. -/
def spec_crc16 (buffer : List Nat) (polynomial : Nat) : Nat :=
  let register := buffer.foldl (spec_crc16_byte polynomial) 0xFFFF
  (List.range 16).foldl (fun register _ => spec_crc16_round polynomial register false) register

/-! ## Theorems on `crc_16` -/

/-- For a length `n` the counter can reach (`n ≤ 65535`) inside the buffer,
the message loop started at index `i ≤ n` runs out of fuel when given at
most `n - i` units and otherwise returns the fold of the loop body over the
bytes `i .. n-1`. -/
theorem crc_16_loop_eq (CRCPOLY : Nat) (buf : List Nat) (n : Nat) (hn : n ≤ 65535)
    (hbuf : n ≤ buf.length) :
    ∀ (fuel i crc : Nat), i ≤ n →
      crc_16_loop CRCPOLY buf (n : Int) fuel i crc =
        if fuel ≤ n - i then Run.outOfFuel
        else Run.done (crc_16_message CRCPOLY crc ((buf.take n).drop i)) := by
  intro fuel
  induction fuel with
  | zero => intro i crc _; simp [crc_16_loop]
  | succ fuel ih =>
    intro i crc hi
    rcases Nat.lt_or_ge i n with hlt | hge
    · have hil : i < buf.length := by omega
      have hit : i < (buf.take n).length := by simp [List.length_take]; omega
      have hcast : ((i : Nat) : Int) < (n : Int) := by exact_mod_cast hlt
      have hmod : (i + 1) % 65536 = i + 1 := Nat.mod_eq_of_lt (by omega)
      have hget : (buf.take n)[i] = buf[i] := by simp [List.getElem_take]
      rw [crc_16_loop, if_pos hcast, List.getElem?_eq_getElem hil]
      simp only [hmod]
      rw [ih (i + 1) _ (by omega), List.drop_eq_getElem_cons hit, hget]
      have hiff : (fuel + 1 ≤ n - i) ↔ (fuel ≤ n - (i + 1)) := by omega
      by_cases hf : fuel ≤ n - (i + 1)
      · rw [if_pos hf, if_pos (hiff.mpr hf)]
      · rw [if_neg hf, if_neg (fun h => hf (hiff.mp h))]
        simp [crc_16_message]
    · have hin : i = n := by omega
      subst hin
      have hcast : ¬ (((i : Nat) : Int) < (i : Int)) := by simp
      have hdrop : (buf.take i).drop i = [] := by
        apply List.drop_eq_nil_of_le
        simp [List.length_take]
      rw [crc_16_loop, if_neg hcast, hdrop]
      simp [crc_16_message]

/-- For a length `n ≤ 65535` inside the buffer, `crc_16` is out of fuel with at
most `n` units and otherwise returns the flushed register of the first `n`
bytes. -/
theorem crc_16_eq (CRCPOLY : Nat) (buf : List Nat) (n : Nat) (hn : n ≤ 65535)
    (hbuf : n ≤ buf.length) (fuel : Nat) :
    crc_16 fuel CRCPOLY buf (n : Int) =
      if fuel ≤ n then Run.outOfFuel
      else Run.done (crc_16_flush CRCPOLY 16 (crc_16_message CRCPOLY 0xFFFF (buf.take n))) := by
  unfold crc_16
  rw [crc_16_loop_eq CRCPOLY buf n hn hbuf fuel 0 0xFFFF (Nat.zero_le n)]
  by_cases hf : fuel ≤ n
  · simp [hf]
  · simp [hf]

/-- Once `len` exceeds 65535 the guard `i < len` holds for every value of the
16-bit counter, so the message loop never leaves: whatever the fuel, it is
exhausted. The reads stay inside a buffer of at least 65536 bytes. -/
theorem crc_16_loop_never_exits (CRCPOLY : Nat) (buf : List Nat) (len : Int)
    (hlen : 65536 ≤ len) (hbuf : 65536 ≤ buf.length) :
    ∀ (fuel i crc : Nat), i < 65536 →
      crc_16_loop CRCPOLY buf len fuel i crc = Run.outOfFuel := by
  intro fuel
  induction fuel with
  | zero => intro i crc _; rfl
  | succ fuel ih =>
    intro i crc hi
    have hcast : ((i : Nat) : Int) < len := by omega
    have hil : i < buf.length := by omega
    rw [crc_16_loop, if_pos hcast, List.getElem?_eq_getElem hil]
    exact ih _ _ (Nat.mod_lt _ (by norm_num))

/-- The register of every round of the bit loop is a 16-bit value. -/
theorem crc_16_flush_lt (CRCPOLY : Nat) :
    ∀ (n crc : Nat), crc < 65536 → crc_16_flush CRCPOLY n crc < 65536 := by
  intro n
  induction n with
  | zero => intro crc h; simpa [crc_16_flush] using h
  | succ n ih =>
    intro crc _
    rw [crc_16_flush]
    apply ih
    dsimp only
    split <;> exact Nat.mod_lt _ (by norm_num)

set_option maxRecDepth 100000 in
/-- The flushed register of the nine bytes of "123456789", polynomial 0x1021. -/
theorem crc_16_check_register :
    crc_16_flush 0x1021 16 (crc_16_message 0x1021 0xFFFF (check_123456789.take 9))
      = 0xE5CC := by decide

set_option maxRecDepth 100000 in
/-- The register 0xFFFF after the 16 flush rounds, polynomial 0x1021. -/
theorem crc_16_flush_init : crc_16_flush 0x1021 16 0xFFFF = 0x1D0F := by decide

/-- Whatever its input, the register after one or more flush rounds is a 16-bit
value. -/
theorem crc_16_flush_succ_lt (CRCPOLY n crc : Nat) :
    crc_16_flush CRCPOLY (n + 1) crc < 65536 := by
  rw [crc_16_flush]
  apply crc_16_flush_lt
  dsimp only
  split <;> exact Nat.mod_lt _ (by norm_num)

/-- For every polynomial and every length `n ≤ 65535` inside the buffer,
`crc_16` returns a 16-bit value as soon as it has fuel for the `n + 1`
evaluations of the guard. -/
theorem crc_16_returns_of_le (CRCPOLY : Nat) (buf : List Nat) (n : Nat) (hn : n ≤ 65535)
    (hbuf : n ≤ buf.length) :
    ∃ v, v < 65536 ∧ ∀ fuel, n < fuel → crc_16 fuel CRCPOLY buf (n : Int) = Run.done v := by
  refine ⟨crc_16_flush CRCPOLY 16 (crc_16_message CRCPOLY 0xFFFF (buf.take n)),
    crc_16_flush_succ_lt CRCPOLY 15 _, ?_⟩
  intro fuel hf
  rw [crc_16_eq CRCPOLY buf n hn hbuf fuel, if_neg (by omega)]

/-- C1 (as the code behaves): with polynomial 0x1021, `crc_16` of the nine
bytes of "123456789" with `len = 9` returns 0xE5CC for every amount of fuel
that lets the loop finish (10 guard evaluations or more). -/
theorem crc_16_check_value (fuel : Nat) :
    crc_16 (fuel + 10) 0x1021 check_123456789 9 = Run.done 0xE5CC := by
  have h := crc_16_eq 0x1021 check_123456789 9 (by norm_num) (by decide) (fuel + 10)
  rw [if_neg (by omega)] at h
  have hv := crc_16_check_register
  rw [hv] at h
  exact_mod_cast h

/-- C1 (counterexample): no amount of fuel makes `crc_16` return 0x29B1 on
the nine bytes of "123456789" with polynomial 0x1021. -/
theorem crc_16_check_not_29B1 :
    ¬ ∃ fuel, crc_16 fuel 0x1021 check_123456789 9 = Run.done 0x29B1 := by
  rintro ⟨fuel, h⟩
  have h2 := crc_16_eq 0x1021 check_123456789 9 (by norm_num) (by decide) fuel
  have hv := crc_16_check_register
  rw [hv] at h2
  have h3 : crc_16 fuel 0x1021 check_123456789 9
      = if fuel ≤ 9 then Run.outOfFuel else Run.done 0xE5CC := by exact_mod_cast h2
  rw [h3] at h
  split at h
  · cases h
  · injection h with h'
    revert h'
    decide

/-- C2: with polynomial 0x1021 and `len = 0`, `crc_16` returns 0x1D0F whatever
the buffer, as soon as it has fuel for the single guard evaluation: the
register 0xFFFF goes through the 16 flush rounds only. -/
theorem crc_16_empty (buf : List Nat) (fuel : Nat) :
    crc_16 (fuel + 1) 0x1021 buf 0 = Run.done 0x1D0F := by
  have h := crc_16_eq 0x1021 buf 0 (by norm_num) (Nat.zero_le _) (fuel + 1)
  rw [if_neg (by omega)] at h
  have hv : crc_16_flush 0x1021 16 (crc_16_message 0x1021 0xFFFF (buf.take 0)) = 0x1D0F := by
    simp only [List.take_zero]
    exact crc_16_flush_init
  rw [hv] at h
  exact_mod_cast h

/-- C3 (the code at the failing input): on a buffer of 65536 bytes with
`len = 65536`, `crc_16` does not return for any amount of fuel and any
polynomial: the 16-bit counter wraps from 65535 to 0 and the guard
`i < len` never fails. -/
theorem crc_16_len_65536_never_returns (fuel CRCPOLY : Nat) :
    crc_16 fuel CRCPOLY (List.replicate 65536 0) 65536 = Run.outOfFuel := by
  unfold crc_16
  rw [crc_16_loop_never_exits CRCPOLY (List.replicate 65536 0) 65536 (le_refl _)
    (by rw [List.length_replicate]) fuel 0 0xFFFF (by norm_num)]

/-! ## Theorems on `store32`, `grab32`, `grab16`, `store16` -/

/-- Clearing the bits of `a < 2^k` in a number whose `k` low bits are all
set. -/
theorem nat_ldiff_low (k c a : Nat) (ha : a < 2 ^ k) :
    Nat.ldiff (2 ^ k * c + (2 ^ k - 1)) a = 2 ^ k * c + (2 ^ k - 1 - a) := by
  have hpos : 0 < 2 ^ k := Nat.two_pow_pos k
  apply Nat.eq_of_testBit_eq
  intro j
  rw [Nat.testBit_ldiff, Nat.testBit_mul_pow_two_add c (by omega : 2 ^ k - 1 < 2 ^ k),
    Nat.testBit_mul_pow_two_add c (by omega : 2 ^ k - 1 - a < 2 ^ k)]
  have hsub : 2 ^ k - 1 - a = 2 ^ k - (a + 1) := by omega
  rw [hsub, Nat.testBit_two_pow_sub_succ ha, Nat.testBit_two_pow_sub_one]
  by_cases hj : j < k
  · simp [hj]
  · have : a.testBit j = false :=
      Nat.testBit_lt_two_pow (Nat.lt_of_lt_of_le ha (Nat.pow_le_pow_right (by norm_num) (by omega)))
    simp [hj, this]

/-- Bitwise or of a natural below `2^k` with an integer multiple of `2^k`, of
either sign, is their sum. -/
theorem int_lor_of_disjoint (k a : Nat) (b : Int) (ha : a < 2 ^ k) (hb : (2 ^ k : Int) ∣ b) :
    Int.lor (a : Int) b = a + b := by
  have hpos : 0 < 2 ^ k := Nat.two_pow_pos k
  obtain ⟨c, rfl⟩ := hb
  cases c with
  | ofNat c =>
    have h1 : ((2 : Int) ^ k * Int.ofNat c) = ((2 ^ k * c : Nat) : Int) := by
      simp
    rw [h1]
    show (((a ||| 2 ^ k * c : Nat)) : Int) = _
    rw [Nat.lor_comm, ← Nat.mul_add_lt_is_or ha]
    push_cast
    ring
  | negSucc c =>
    have h3 : ((2 ^ k - 1 : Nat) : Int) = (2 : Int) ^ k - 1 := by
      rw [Nat.cast_sub hpos]; simp
    have h1 : ((2 : Int) ^ k * Int.negSucc c) = Int.negSucc (2 ^ k * c + (2 ^ k - 1)) := by
      rw [Int.negSucc_eq, Int.negSucc_eq]
      push_cast
      rw [h3]
      ring
    rw [h1]
    show Int.negSucc (Nat.ldiff (2 ^ k * c + (2 ^ k - 1)) a) = _
    rw [nat_ldiff_low k c a ha, Int.negSucc_eq, Int.negSucc_eq]
    have h2 : ((2 ^ k - 1 - a : Nat) : Int) = (2 : Int) ^ k - 1 - a := by
      rw [Nat.cast_sub (by omega), Nat.cast_sub hpos]; simp
    push_cast
    rw [h2, h3]
    ring

/-- A left shift of a byte by 8 or 16 does not overflow `int`. -/
theorem int32_shl_small (b k : Nat) (hb : b < 256) (hk : k ≤ 16) :
    int32_shl (b : Int) k = ((2 ^ k * b : Nat) : Int) := by
  have hle : 2 ^ k ≤ 2 ^ 16 := Nat.pow_le_pow_right (by norm_num) hk
  have hlt : 2 ^ k * b < 2 ^ 31 := by
    calc 2 ^ k * b ≤ 2 ^ 16 * b := Nat.mul_le_mul_right _ hle
      _ < 2 ^ 31 := by omega
  have hx : ((b : Int) * 2 ^ k) = ((2 ^ k * b : Nat) : Int) := by push_cast; ring
  unfold int32_shl int32_wrap
  rw [hx]
  have h0 : (0 : Int) ≤ ((2 ^ k * b : Nat) : Int) := Int.ofNat_nonneg _
  have h1 : ((2 ^ k * b : Nat) : Int) < 2 ^ 31 := by exact_mod_cast hlt
  have hm : ((2 ^ k * b : Nat) : Int) % 2 ^ 32 = ((2 ^ k * b : Nat) : Int) :=
    Int.emod_eq_of_lt h0 (by omega)
  rw [hm, if_pos h1]

/-- The value of `b << 24` in `int` for a byte `b`: negative from `0x80` on. -/
theorem int32_shl_24 (b : Nat) (hb : b < 256) :
    int32_shl (b : Int) 24 =
      if b < 128 then (2 : Int) ^ 24 * b else (2 : Int) ^ 24 * b - 2 ^ 32 := by
  unfold int32_shl int32_wrap
  norm_num
  split <;> split <;> omega

/-- Masking a byte with `0xff` in `int` keeps it. -/
theorem int_land_byte (b0 : Nat) (hb0 : b0 < 256) : Int.land (b0 : Int) 0xff = (b0 : Int) := by
  show (((b0 &&& 0xff : Nat)) : Int) = _
  rw [show (0xff : Nat) = 2 ^ 8 - 1 by norm_num, Nat.and_pow_two_sub_one_eq_mod,
    Nat.mod_eq_of_lt (by omega)]

/-- The `int` value of the expression of `grab32` on four bytes: the three
low bytes in place plus the (possibly negative) value of `b3 << 24`. -/
theorem grab32_int_value (b0 b1 b2 b3 : Nat) (hb0 : b0 < 256) (hb1 : b1 < 256)
    (hb2 : b2 < 256) (hb3 : b3 < 256) :
    Int.lor (Int.lor (Int.lor (Int.land (b0 : Int) 0xff) (int32_shl (b1 : Int) 8))
      (int32_shl (b2 : Int) 16)) (int32_shl (b3 : Int) 24)
      = ((b0 + 2 ^ 8 * b1 + 2 ^ 16 * b2 : Nat) : Int) + int32_shl (b3 : Int) 24 := by
  have hland := int_land_byte b0 hb0
  have h1 := int32_shl_small b1 8 hb1 (by norm_num)
  have h2 := int32_shl_small b2 16 hb2 (by norm_num)
  have h3 := int32_shl_24 b3 hb3
  have hd1 : ((2 : Int) ^ 8) ∣ ((2 ^ 8 * b1 : Nat) : Int) := ⟨(b1 : Int), by push_cast; ring⟩
  have hd2 : ((2 : Int) ^ 16) ∣ ((2 ^ 16 * b2 : Nat) : Int) := ⟨(b2 : Int), by push_cast; ring⟩
  have hd3 : ((2 : Int) ^ 24) ∣ int32_shl (b3 : Int) 24 := by
    rw [h3]
    split
    · exact ⟨(b3 : Int), rfl⟩
    · exact ⟨(b3 : Int) - 2 ^ 8, by ring⟩
  have hor1 := int_lor_of_disjoint 8 b0 _ (by omega) hd1
  have hor2 := int_lor_of_disjoint 16 (b0 + 2 ^ 8 * b1) _ (by omega) hd2
  have hor3 := int_lor_of_disjoint 24 (b0 + 2 ^ 8 * b1 + 2 ^ 16 * b2) _ (by omega) hd3
  rw [hland, h1, hor1, ← Nat.cast_add, h2, hor2, ← Nat.cast_add, hor3]

/-- The `u_int32_t` the expression of `grab32` converts to, on four bytes. -/
theorem grab32_u32_value (b0 b1 b2 b3 : Nat) (hb0 : b0 < 256) (hb1 : b1 < 256)
    (hb2 : b2 < 256) (hb3 : b3 < 256) :
    ((Int.lor (Int.lor (Int.lor (Int.land (b0 : Int) 0xff) (int32_shl (b1 : Int) 8))
      (int32_shl (b2 : Int) 16)) (int32_shl (b3 : Int) 24)) % 2 ^ 32).toNat
      = b0 + 2 ^ 8 * b1 + 2 ^ 16 * b2 + 2 ^ 24 * b3 := by
  rw [grab32_int_value b0 b1 b2 b3 hb0 hb1 hb2 hb3, int32_shl_24 b3 hb3]
  split <;> omega

/-- The `u_int16_t` the expression of `grab16` converts to, on two bytes. -/
theorem grab16_u16_value (b0 b1 : Nat) (hb0 : b0 < 256) (hb1 : b1 < 256) :
    ((Int.lor (Int.land (b0 : Int) 0xff) (int32_shl (b1 : Int) 8)) % 2 ^ 16).toNat
      = b0 + 2 ^ 8 * b1 := by
  have hd1 : ((2 : Int) ^ 8) ∣ ((2 ^ 8 * b1 : Nat) : Int) := ⟨(b1 : Int), by push_cast; ring⟩
  rw [int_land_byte b0 hb0, int32_shl_small b1 8 hb1 (by norm_num),
    int_lor_of_disjoint 8 b0 _ (by omega) hd1]
  omega

/-- The value `grab32` reads from four cells: the little-endian sum of their
low 8 bits. -/
theorem grab32_cons (s0 s1 s2 s3 : Nat) (rest : List Nat) :
    grab32 (s0 :: s1 :: s2 :: s3 :: rest) =
      some (s0 % 256 + 2 ^ 8 * (s1 % 256) + 2 ^ 16 * (s2 % 256) + 2 ^ 24 * (s3 % 256)) := by
  have h := grab32_u32_value (s0 % 256) (s1 % 256) (s2 % 256) (s3 % 256)
    (Nat.mod_lt _ (by norm_num)) (Nat.mod_lt _ (by norm_num)) (Nat.mod_lt _ (by norm_num))
    (Nat.mod_lt _ (by norm_num))
  simp only [grab32]
  rw [h]

/-- The value `grab16` reads from two cells: the little-endian sum of their
low 8 bits. -/
theorem grab16_cons (s0 s1 : Nat) (rest : List Nat) :
    grab16 (s0 :: s1 :: rest) = some (s0 % 256 + 2 ^ 8 * (s1 % 256)) := by
  have h := grab16_u16_value (s0 % 256) (s1 % 256)
    (Nat.mod_lt _ (by norm_num)) (Nat.mod_lt _ (by norm_num))
  simp only [grab16]
  rw [h]

/-- The four cells `store32` writes, on a buffer given by its first four
cells and the rest. -/
theorem store32_cons (val d0 d1 d2 d3 : Nat) (rest : List Nat) :
    store32 val (d0 :: d1 :: d2 :: d3 :: rest) =
      some (val % 256 :: (val >>> 8) % 256 :: (val >>> 16) % 256 :: (val >>> 24) % 256
        :: rest) := by
  have hland : (val % 2 ^ 32 &&& 0xff) % 256 = val % 256 := by
    rw [show (0xff : Nat) = 2 ^ 8 - 1 by norm_num, Nat.and_pow_two_sub_one_eq_mod]
    omega
  have h8 : ((val % 2 ^ 32) >>> 8) % 256 = (val >>> 8) % 256 := by
    simp only [Nat.shiftRight_eq_div_pow]; omega
  have h16 : ((val % 2 ^ 32) >>> 16) % 256 = (val >>> 16) % 256 := by
    simp only [Nat.shiftRight_eq_div_pow]; omega
  have h24 : ((val % 2 ^ 32) >>> 24) % 256 = (val >>> 24) % 256 := by
    simp only [Nat.shiftRight_eq_div_pow]; omega
  simp only [store32, List.length_cons, List.set_cons_zero, List.set_cons_succ]
  rw [if_pos (by omega), hland, h8, h16, h24]

/-- The two cells `store16` writes, on a buffer given by its first two cells
and the rest; `val` is converted to `u_int16_t` at the call. -/
theorem store16_cons (val d0 d1 : Nat) (rest : List Nat) :
    store16 val (d0 :: d1 :: rest) =
      some (val % 256 :: ((val % 2 ^ 16) >>> 8) % 256 :: rest) := by
  have hland : (val % 2 ^ 16 &&& 0xff) % 256 = val % 256 := by
    rw [show (0xff : Nat) = 2 ^ 8 - 1 by norm_num, Nat.and_pow_two_sub_one_eq_mod]
    omega
  simp only [store16, List.length_cons, List.set_cons_zero, List.set_cons_succ]
  rw [if_pos (by omega), hland]

/-- A buffer of at least four cells is its first four cells and the rest. -/
theorem buffer_four_cells (dst : List Nat) (h : 4 ≤ dst.length) :
    ∃ d0 d1 d2 d3 rest, dst = d0 :: d1 :: d2 :: d3 :: rest := by
  match dst, h with
  | d0 :: d1 :: d2 :: d3 :: rest, _ => exact ⟨d0, d1, d2, d3, rest, rfl⟩

/-- A buffer of at least two cells is its first two cells and the rest. -/
theorem buffer_two_cells (dst : List Nat) (h : 2 ≤ dst.length) :
    ∃ d0 d1 rest, dst = d0 :: d1 :: rest := by
  match dst, h with
  | d0 :: d1 :: rest, _ => exact ⟨d0, d1, rest, rfl⟩

/-- C4: 16-bit round trip. For every 16-bit value `v` and every destination of
at least two cells, `grab16` applied to the buffer `store16 (v, dst)` wrote
returns `v`. -/
theorem store16_grab16_roundtrip (v : Nat) (dst : List Nat) (hv : v < 2 ^ 16)
    (hdst : 2 ≤ dst.length) :
    (store16 v dst).bind grab16 = some v := by
  obtain ⟨d0, d1, rest, rfl⟩ := buffer_two_cells dst hdst
  rw [store16_cons, Option.some_bind, grab16_cons]
  apply congrArg some
  simp only [Nat.shiftRight_eq_div_pow]
  omega

/-- C4 (witness): the round trip at `v = 0xBEEF` on a three-cell buffer. -/
theorem store16_grab16_roundtrip_witness :
    0xBEEF < 2 ^ 16 ∧ 2 ≤ [7, 7, 7].length ∧
      (store16 0xBEEF [7, 7, 7]).bind grab16 = some 0xBEEF :=
  ⟨by norm_num, by decide,
    store16_grab16_roundtrip 0xBEEF [7, 7, 7] (by norm_num) (by decide)⟩

/-- C5: 32-bit round trip. For every 32-bit value `v`, bit 31 set or not, and
every destination of at least four cells, `grab32` applied to the buffer
`store32 (v, dst)` wrote returns `v`. -/
theorem store32_grab32_roundtrip (v : Nat) (dst : List Nat) (hv : v < 2 ^ 32)
    (hdst : 4 ≤ dst.length) :
    (store32 v dst).bind grab32 = some v := by
  obtain ⟨d0, d1, d2, d3, rest, rfl⟩ := buffer_four_cells dst hdst
  rw [store32_cons, Option.some_bind, grab32_cons]
  apply congrArg some
  simp only [Nat.shiftRight_eq_div_pow]
  omega

/-- C5 (witness): the round trip at `v = 0xF2345678`, whose bit 31 is set. -/
theorem store32_grab32_roundtrip_witness :
    0xF2345678 < 2 ^ 32 ∧ 4 ≤ [7, 7, 7, 7, 7].length ∧
      (store32 0xF2345678 [7, 7, 7, 7, 7]).bind grab32 = some 0xF2345678 :=
  ⟨by norm_num, by decide,
    store32_grab32_roundtrip 0xF2345678 [7, 7, 7, 7, 7] (by norm_num) (by decide)⟩

/-- C6: `store32` and `store16` write little-endian and nothing else. On a
destination of at least four (respectively two) cells the call succeeds, the
buffer keeps its length, cell `i` holds `(v >> 8*i) mod 256` for `i < 4`
(respectively `i < 2`), and every cell at index `≥ 4` (respectively `≥ 2`)
is unchanged. -/
theorem store_little_endian_frame (v w : Nat) (dst dst2 : List Nat)
    (hdst : 4 ≤ dst.length) (hdst2 : 2 ≤ dst2.length) :
    (∃ out, store32 v dst = some out ∧ out.length = dst.length ∧
        (∀ i, i < 4 → out[i]? = some ((v >>> (8 * i)) % 256)) ∧
        (∀ i, 4 ≤ i → out[i]? = dst[i]?)) ∧
    (∃ out, store16 w dst2 = some out ∧ out.length = dst2.length ∧
        (∀ i, i < 2 → out[i]? = some ((w >>> (8 * i)) % 256)) ∧
        (∀ i, 2 ≤ i → out[i]? = dst2[i]?)) := by
  obtain ⟨d0, d1, d2, d3, rest, rfl⟩ := buffer_four_cells dst hdst
  obtain ⟨e0, e1, rest2, rfl⟩ := buffer_two_cells dst2 hdst2
  refine ⟨⟨_, store32_cons v d0 d1 d2 d3 rest, by simp, ?_, ?_⟩,
    ⟨_, store16_cons w e0 e1 rest2, by simp, ?_, ?_⟩⟩
  · intro i hi
    interval_cases i <;> simp
  · intro i hi
    obtain ⟨k, rfl⟩ : ∃ k, i = k + 4 := ⟨i - 4, by omega⟩
    simp
  · intro i hi
    have h8 : ((w % 2 ^ 16) >>> 8) % 256 = (w >>> 8) % 256 := by
      simp only [Nat.shiftRight_eq_div_pow]; omega
    interval_cases i
    · simp
    · simpa using h8
  · intro i hi
    obtain ⟨k, rfl⟩ : ∃ k, i = k + 2 := ⟨i - 2, by omega⟩
    simp

/-- C6 (witness): `store32` of `0xF2345678` and `store16` of `0xBEEF` on
buffers with one cell to spare. -/
theorem store_little_endian_frame_witness :
    4 ≤ [7, 7, 7, 7, 9].length ∧ 2 ≤ [7, 7, 9].length ∧
    ((∃ out, store32 0xF2345678 [7, 7, 7, 7, 9] = some out ∧
        out.length = [7, 7, 7, 7, 9].length ∧
        (∀ i, i < 4 → out[i]? = some ((0xF2345678 >>> (8 * i)) % 256)) ∧
        (∀ i, 4 ≤ i → out[i]? = [7, 7, 7, 7, 9][i]?)) ∧
    (∃ out, store16 0xBEEF [7, 7, 9] = some out ∧ out.length = [7, 7, 9].length ∧
        (∀ i, i < 2 → out[i]? = some ((0xBEEF >>> (8 * i)) % 256)) ∧
        (∀ i, 2 ≤ i → out[i]? = [7, 7, 9][i]?))) :=
  ⟨by decide, by decide,
    store_little_endian_frame 0xF2345678 0xBEEF [7, 7, 7, 7, 9] [7, 7, 9]
      (by decide) (by decide)⟩

/-- C7: `grab32` and `grab16` read little-endian. For all bytes `b0 .. b3`
(also when `b3 ≥ 0x80`) `grab32` returns `b0 + 2^8*b1 + 2^16*b2 + 2^24*b3` and
`grab16` returns `b0 + 2^8*b1`, whatever follows the cells read. -/
theorem grab_little_endian (b0 b1 b2 b3 : Nat) (rest : List Nat)
    (h0 : b0 < 256) (h1 : b1 < 256) (h2 : b2 < 256) (h3 : b3 < 256) :
    grab32 (b0 :: b1 :: b2 :: b3 :: rest)
        = some (b0 + 2 ^ 8 * b1 + 2 ^ 16 * b2 + 2 ^ 24 * b3) ∧
      grab16 (b0 :: b1 :: rest) = some (b0 + 2 ^ 8 * b1) := by
  rw [grab32_cons, grab16_cons, Nat.mod_eq_of_lt h0, Nat.mod_eq_of_lt h1,
    Nat.mod_eq_of_lt h2, Nat.mod_eq_of_lt h3]
  exact ⟨rfl, rfl⟩

/-- C7 (witness): the bytes `78 56 34 F2`, the last one above `0x80`. -/
theorem grab_little_endian_witness :
    0x78 < 256 ∧ 0x56 < 256 ∧ 0x34 < 256 ∧ 0xF2 < 256 ∧
      grab32 (0x78 :: 0x56 :: 0x34 :: 0xF2 :: [])
        = some (0x78 + 2 ^ 8 * 0x56 + 2 ^ 16 * 0x34 + 2 ^ 24 * 0xF2) ∧
      grab16 (0x78 :: 0x56 :: []) = some (0x78 + 2 ^ 8 * 0x56) :=
  ⟨by decide, by decide, by decide, by decide,
    grab_little_endian 0x78 0x56 0x34 0xF2 [] (by decide) (by decide) (by decide) (by decide)⟩

/-! ## Theorems on `parse_mac` and `fprint_mac` -/

/-- What the parsers need to know of a hexadecimal digit character. -/
theorem hexdigit_spec (u : Bool) (n : Nat) :
    hexval (hexdigit u n) = some (n % 16) ∧ isspace (hexdigit u n) = false ∧
      hexdigit u n ≠ '+' ∧ hexdigit u n ≠ '-' ∧ hexdigit u n ≠ 'x' ∧ hexdigit u n ≠ 'X' ∧
      hexdigit u n ≠ ':' ∧ hexdigit u n ≠ NUL ∧ hexdigit u n ≠ '\n' := by
  have h : n % 16 < 16 := Nat.mod_lt _ (by norm_num)
  unfold hexdigit
  generalize n % 16 = k at h ⊢
  interval_cases k <;> cases u <;> decide

/-- The conversion `%2hhX` on two hexadecimal digits reads both and yields
their value. -/
theorem scan_hex2_pair (u1 u2 : Bool) (m : Nat) (rest : List Char) :
    scan_hex2 (hex_hi u1 m :: hex_lo u2 m :: rest) = Scan.ok ((m % 256 : Nat) : Int) rest := by
  obtain ⟨hv1, -, hp1, hm1, -, -, -, -, -⟩ := hexdigit_spec u1 (m % 256 / 16)
  obtain ⟨hv2, -, -, -, hx2, hX2, -, -, -⟩ := hexdigit_spec u2 (m % 256)
  have hval : 16 * (m % 256 / 16 % 16) + m % 256 % 16 = m % 256 := by omega
  simp only [scan_hex2, hex_hi, hex_lo, hv1, hv2, hp1, hm1, hx2, hX2, false_or, or_self,
    and_false, if_false, hval]


/-- The `unsigned char` stored for a converted byte value. -/
theorem byte_store (m : Nat) : (((m % 256 : Nat) : Int) % 256).toNat = m % 256 := by omega

/-- One conversion followed by the colon of the format, with conversions left. -/
theorem sscanf_mac_step (n k : Nat) (u1 u2 : Bool) (m : Nat) (rest : List Char)
    (dst : List Nat) (hk : k < dst.length) :
    sscanf_mac (n + 2) k (hex_hi u1 m :: hex_lo u2 m :: ':' :: rest) dst
      = sscanf_mac (n + 1) (k + 1) rest (dst.set k (m % 256)) := by
  have hs : isspace (hex_hi u1 m) = false := (hexdigit_spec u1 (m % 256 / 16)).2.1
  rw [sscanf_mac]
  simp only [List.dropWhile, hs, scan_hex2_pair, if_pos hk, byte_store]
  simp

/-- The sixth conversion: nothing of the format is left after it. -/
theorem sscanf_mac_last (k : Nat) (u1 u2 : Bool) (m : Nat) (rest : List Char)
    (dst : List Nat) (hk : k < dst.length) :
    sscanf_mac 1 k (hex_hi u1 m :: hex_lo u2 m :: rest) dst
      = some ((k : Int) + 1, dst.set k (m % 256)) := by
  have hs : isspace (hex_hi u1 m) = false := (hexdigit_spec u1 (m % 256 / 16)).2.1
  rw [sscanf_mac]
  simp only [List.dropWhile, hs, scan_hex2_pair, if_pos hk, byte_store]
  simp

/-- On the colon-delimited text of six bytes, whatever follows it, `sscanf`
assigns the six bytes and `parse_mac` returns 0. -/
theorem parse_mac_colon_text (up : Nat → Bool) (m0 m1 m2 m3 m4 m5 : Nat) (tail : List Char)
    (d0 d1 d2 d3 d4 d5 : Nat) (rest : List Nat) (after_hex : Nat → List Char) :
    parse_mac (colon_text up m0 m1 m2 m3 m4 m5 ++ tail)
        (d0 :: d1 :: d2 :: d3 :: d4 :: d5 :: rest) after_hex
      = some (0, m0 % 256 :: m1 % 256 :: m2 % 256 :: m3 % 256 :: m4 % 256 :: m5 % 256
          :: rest) := by
  have hmem : ':' ∈ colon_text up m0 m1 m2 m3 m4 m5 ++ tail := by
    simp [colon_text]
  unfold parse_mac
  rw [if_neg (not_not.mpr hmem)]
  simp only [colon_text, List.cons_append, List.nil_append]
  rw [sscanf_mac_step 4 0 _ _ _ _ _ (by simp), sscanf_mac_step 3 1 _ _ _ _ _ (by simp),
    sscanf_mac_step 2 2 _ _ _ _ _ (by simp), sscanf_mac_step 1 3 _ _ _ _ _ (by simp),
    sscanf_mac_step 0 4 _ _ _ _ _ (by simp), sscanf_mac_last 5 _ _ _ _ _ (by simp)]
  simp


/-- The run of digits is empty when the input does not start with one. -/
theorem hex_digits_value_stop (t : List Char) (acc : Nat)
    (h : t.head?.bind hexval = none) : hex_digits_value t acc = acc := by
  cases t with
  | nil => rfl
  | cons c r =>
    have hc : hexval c = none := by simpa using h
    simp [hex_digits_value, hc]

/-- Cutting the memory at its first NUL keeps the fact that it does not start
with a hexadecimal digit. -/
theorem takeWhile_head_hexval (after : List Char) (h : after.head?.bind hexval = none) :
    (after.takeWhile (fun c => c ≠ NUL)).head?.bind hexval = none := by
  cases after with
  | nil => rfl
  | cons c r =>
    have hc : hexval c = none := by simpa using h
    by_cases hn : c = NUL
    · simp [List.takeWhile, hn]
    · simp [List.takeWhile, hn, hc]

/-- When no hexadecimal digit follows the array `hex` in memory, `strtol`
returns the value of the two digits in it. -/
theorem strtol16_pair (u1 u2 : Bool) (m : Nat) (after : List Char)
    (h : after.head?.bind hexval = none) :
    strtol16 ((hex_hi u1 m :: hex_lo u2 m :: after).takeWhile (fun c => c ≠ NUL))
      = ((m % 256 : Nat) : Int) := by
  obtain ⟨hv1, hs1, hp1, hm1, -, -, -, hn1, -⟩ := hexdigit_spec u1 (m % 256 / 16)
  obtain ⟨hv2, -, -, -, hx2, hX2, -, hn2, -⟩ := hexdigit_spec u2 (m % 256)
  have hval : 16 * (m % 256 / 16 % 16) + m % 256 % 16 = m % 256 := by omega
  have ht := takeWhile_head_hexval after h
  have hle : ((m % 256 : Nat) : Int) ≤ LONG_MAX := by
    have : m % 256 < 256 := Nat.mod_lt _ (by norm_num)
    unfold LONG_MAX
    omega
  simp only [hex_hi, hex_lo] at *
  simp only [List.takeWhile, hn1, hn2, ne_eq, not_false_eq_true, decide_True, strtol16,
    List.dropWhile, hs1, List.head?_cons, Option.some.injEq, hm1, hp1, or_self, if_false,
    List.tail_cons, hx2, hX2, false_and, and_false, hex_digits_value, hv1, hv2,
    hex_digits_value_stop _ _ ht, Nat.mul_zero, Nat.zero_add, hval, decide_False]
  exact min_eq_left hle


/-- One round of the loop of the undelimited branch on a pair of digits, when
no hexadecimal digit follows `hex` in memory. -/
theorem parse_mac_loop_step (src_mac : List Char) (after_hex : Nat → List Char)
    (n x y : Nat) (dst : List Nat) (u1 u2 : Bool) (m : Nat)
    (h0 : read_char src_mac y = some (hex_hi u1 m))
    (h1 : read_char src_mac (y + 1) = some (hex_lo u2 m))
    (hx : x < dst.length) (hafter : (after_hex x).head?.bind hexval = none) :
    parse_mac_loop src_mac after_hex (n + 1) x y dst
      = parse_mac_loop src_mac after_hex n (x + 1) (y + 2) (dst.set x (m % 256)) := by
  rw [parse_mac_loop, h0, h1]
  simp only [if_pos hx, strtol16_pair u1 u2 m (after_hex x) hafter, byte_store]

/-- The colon is not a hexadecimal digit. -/
theorem colon_ne_hexdigit (u : Bool) (n : Nat) : ¬ (':' = hexdigit u n) :=
  fun h => (hexdigit_spec u n).2.2.2.2.2.2.1 h.symm

/-- A hexadecimal digit is not the newline. -/
theorem hexdigit_ne_newline (u : Bool) (n : Nat) : ¬ (hexdigit u n = '\n') :=
  (hexdigit_spec u n).2.2.2.2.2.2.2.2

/-- On the undelimited text of six bytes, when in no round a hexadecimal
digit follows the array `hex` in memory, `parse_mac` stores the six bytes and
returns 0. -/
theorem parse_mac_plain_text (up : Nat → Bool) (m0 m1 m2 m3 m4 m5 : Nat)
    (d0 d1 d2 d3 d4 d5 : Nat) (rest : List Nat) (after_hex : Nat → List Char)
    (hafter : ∀ x, x < 6 → (after_hex x).head?.bind hexval = none) :
    parse_mac (plain_text up m0 m1 m2 m3 m4 m5)
        (d0 :: d1 :: d2 :: d3 :: d4 :: d5 :: rest) after_hex
      = some (0, m0 % 256 :: m1 % 256 :: m2 % 256 :: m3 % 256 :: m4 % 256 :: m5 % 256
          :: rest) := by
  have hmem : ¬ (':' ∈ plain_text up m0 m1 m2 m3 m4 m5) := by
    simp [plain_text, hex_hi, hex_lo, colon_ne_hexdigit]
  have hnl : ¬ (read_char (plain_text up m0 m1 m2 m3 m4 m5) 0 = some '\n') := by
    simp [read_char, plain_text, hex_hi, hexdigit_ne_newline]
  unfold parse_mac
  rw [if_pos hmem, if_neg hnl]
  rw [parse_mac_loop_step _ _ 5 0 0 _ (up 0) (up 1) m0 (by simp [read_char, plain_text])
      (by simp [read_char, plain_text]) (by simp) (hafter 0 (by norm_num)),
    parse_mac_loop_step _ _ 4 1 2 _ (up 2) (up 3) m1 (by simp [read_char, plain_text])
      (by simp [read_char, plain_text]) (by simp) (hafter 1 (by norm_num)),
    parse_mac_loop_step _ _ 3 2 4 _ (up 4) (up 5) m2 (by simp [read_char, plain_text])
      (by simp [read_char, plain_text]) (by simp) (hafter 2 (by norm_num)),
    parse_mac_loop_step _ _ 2 3 6 _ (up 6) (up 7) m3 (by simp [read_char, plain_text])
      (by simp [read_char, plain_text]) (by simp) (hafter 3 (by norm_num)),
    parse_mac_loop_step _ _ 1 4 8 _ (up 8) (up 9) m4 (by simp [read_char, plain_text])
      (by simp [read_char, plain_text]) (by simp) (hafter 4 (by norm_num)),
    parse_mac_loop_step _ _ 0 5 10 _ (up 10) (up 11) m5 (by simp [read_char, plain_text])
      (by simp [read_char, plain_text]) (by simp) (hafter 5 (by norm_num))]
  simp [parse_mac_loop]

/-- A buffer of at least six cells is its first six cells and the rest. -/
theorem buffer_six_cells (dst : List Nat) (h : 6 ≤ dst.length) :
    ∃ d0 d1 d2 d3 d4 d5 rest, dst = d0 :: d1 :: d2 :: d3 :: d4 :: d5 :: rest := by
  match dst, h with
  | d0 :: d1 :: d2 :: d3 :: d4 :: d5 :: rest, _ => exact ⟨d0, d1, d2, d3, d4, d5, rest, rfl⟩

/-- C8 (the code at the failing inputs): `parse_mac` returns 0, the value of
success, on the malformed strings "zz:zz:zz:zz:zz:zz" and "GGGGGGGGGGGG",
whatever the destination holds and whatever follows `hex` in memory. On the
first `sscanf` converts no field, returns 0 and leaves the destination as it
was; on the second every `strtol` call converts nothing and stores 0. -/
theorem parse_mac_malformed_returns_zero (d0 d1 d2 d3 d4 d5 : Nat) (rest : List Nat)
    (after_hex : Nat → List Char) :
    parse_mac "zz:zz:zz:zz:zz:zz".toList (d0 :: d1 :: d2 :: d3 :: d4 :: d5 :: rest) after_hex
        = some (0, d0 :: d1 :: d2 :: d3 :: d4 :: d5 :: rest) ∧
      parse_mac "GGGGGGGGGGGG".toList (d0 :: d1 :: d2 :: d3 :: d4 :: d5 :: rest) after_hex
        = some (0, 0 :: 0 :: 0 :: 0 :: 0 :: 0 :: rest) := by
  have hG : ∀ t : List Char,
      strtol16 (List.takeWhile (fun c => !decide (c = NUL)) ('G' :: 'G' :: t)) = 0 :=
    fun _ => rfl
  constructor
  · simp [parse_mac, sscanf_mac, scan_hex2, isspace, hexval]
  · simp [parse_mac, parse_mac_loop, read_char, hG]

/-- C9: colon-delimited parse. For all bytes `m0 .. m5`, digit cases `up`, with
or without a final newline, `parse_mac` on the text `HH:HH:HH:HH:HH:HH`
returns 0 and leaves `m0 .. m5` in `dst_mac[0..5]`, the cells after them
unchanged; and `fprint_mac` prints that text in lower case followed by a
newline. -/
theorem parse_mac_colon_roundtrip (m0 m1 m2 m3 m4 m5 : Nat) (up : Nat → Bool) (nl : Bool)
    (dst : List Nat) (after_hex : Nat → List Char)
    (h0 : m0 < 256) (h1 : m1 < 256) (h2 : m2 < 256) (h3 : m3 < 256) (h4 : m4 < 256)
    (h5 : m5 < 256) (hdst : 6 ≤ dst.length) :
    parse_mac (colon_text up m0 m1 m2 m3 m4 m5 ++ (if nl then ['\n'] else [])) dst after_hex
        = some (0, m0 :: m1 :: m2 :: m3 :: m4 :: m5 :: dst.drop 6) ∧
      fprint_mac [m0, m1, m2, m3, m4, m5]
        = some (colon_text (fun _ => false) m0 m1 m2 m3 m4 m5 ++ ['\n']) := by
  obtain ⟨d0, d1, d2, d3, d4, d5, rest, rfl⟩ := buffer_six_cells dst hdst
  refine ⟨?_, rfl⟩
  rw [parse_mac_colon_text, Nat.mod_eq_of_lt h0, Nat.mod_eq_of_lt h1, Nat.mod_eq_of_lt h2,
    Nat.mod_eq_of_lt h3, Nat.mod_eq_of_lt h4, Nat.mod_eq_of_lt h5]
  rfl

/-- C9 (witness): the address `aa:0b:cc:dd:ee:ff` in lower case with the final
newline, as `fprint_mac` prints it, parsed into a seven-cell buffer. -/
theorem parse_mac_colon_roundtrip_witness :
    0xaa < 256 ∧ 0x0b < 256 ∧ 0xcc < 256 ∧ 0xdd < 256 ∧ 0xee < 256 ∧ 0xff < 256 ∧
      6 ≤ [1, 2, 3, 4, 5, 6, 7].length ∧
      (parse_mac (colon_text (fun _ => false) 0xaa 0x0b 0xcc 0xdd 0xee 0xff ++
            (if true then ['\n'] else [])) [1, 2, 3, 4, 5, 6, 7] (fun _ => [])
          = some (0, 0xaa :: 0x0b :: 0xcc :: 0xdd :: 0xee :: 0xff :: [1, 2, 3, 4, 5, 6, 7].drop 6) ∧
        fprint_mac [0xaa, 0x0b, 0xcc, 0xdd, 0xee, 0xff]
          = some (colon_text (fun _ => false) 0xaa 0x0b 0xcc 0xdd 0xee 0xff ++ ['\n'])) :=
  ⟨by decide, by decide, by decide, by decide, by decide, by decide, by decide,
    parse_mac_colon_roundtrip 0xaa 0x0b 0xcc 0xdd 0xee 0xff (fun _ => false) true
      [1, 2, 3, 4, 5, 6, 7] (fun _ => []) (by decide) (by decide) (by decide) (by decide)
      (by decide) (by decide) (by decide)⟩

set_option maxRecDepth 100000 in
/-- C10 (the code at the failing input): on the well-formed undelimited text
"AABBCCDDEEFF", when the character `1` follows the unterminated array `hex`
in memory, every `strtol` call reads three digits and `parse_mac` stores
`A1 B1 C1 D1 E1 F1` instead of `AA BB CC DD EE FF`, returning 0. -/
theorem parse_mac_plain_reads_past_hex :
    plain_text (fun _ => true) 0xAA 0xBB 0xCC 0xDD 0xEE 0xFF = "AABBCCDDEEFF".toList ∧
      parse_mac "AABBCCDDEEFF".toList [0, 0, 0, 0, 0, 0] (fun _ => ['1'])
        = some (0, [0xA1, 0xB1, 0xC1, 0xD1, 0xE1, 0xF1]) := by
  decide

/-! ## Theorems on the rounds of `crc_16` -/

/-- A round of the inner loop in terms of `crc_16_round`. -/
theorem crc_16_bits_succ (CRCPOLY slice n align crc : Nat) :
    crc_16_bits CRCPOLY slice (n + 1) align crc =
      crc_16_bits CRCPOLY slice n ((align >>> 1) % 256)
        (crc_16_round CRCPOLY crc (decide (slice &&& align ≠ 0))) := by
  rw [crc_16_bits]
  by_cases h : slice &&& align ≠ 0 <;> simp [crc_16_round, h]

/-- A round of the flush loop in terms of `crc_16_round`. -/
theorem crc_16_flush_succ (CRCPOLY n crc : Nat) :
    crc_16_flush CRCPOLY (n + 1) crc =
      crc_16_flush CRCPOLY n (crc_16_round CRCPOLY crc false) := by
  rw [crc_16_flush]
  simp [crc_16_round]

/-- The flush loop is the fold of the round over `n` absent message bits. -/
theorem crc_16_flush_eq_foldl (CRCPOLY : Nat) :
    ∀ (n crc : Nat), crc_16_flush CRCPOLY n crc =
      (List.replicate n false).foldl (crc_16_round CRCPOLY) crc := by
  intro n
  induction n with
  | zero => intro crc; rfl
  | succ n ih =>
    intro crc
    rw [crc_16_flush_succ, ih, List.replicate_succ, List.foldl_cons]

/-- Masking with a single bit: the mask when the bit is set, 0 otherwise. -/
theorem and_two_pow_eq (s j : Nat) : s &&& 2 ^ j = if s.testBit j then 2 ^ j else 0 := by
  apply Nat.eq_of_testBit_eq
  intro i
  rw [Nat.testBit_and, Nat.testBit_two_pow]
  by_cases hij : j = i
  · subst hij
    by_cases hs : s.testBit j = true
    · simp [hs, Nat.testBit_two_pow_self]
    · simp [hs]
  · by_cases hs : s.testBit j = true
    · simp [hs, hij, Nat.testBit_two_pow_of_ne hij]
    · simp [hs, hij]

/-- The test `slice & align` of the inner loop, for a one-bit mask. -/
theorem and_two_pow_ne_zero (s j : Nat) : decide (s &&& 2 ^ j ≠ 0) = s.testBit j := by
  rw [and_two_pow_eq]
  have hpos : 2 ^ j ≠ 0 := Nat.pos_iff_ne_zero.mp (Nat.two_pow_pos j)
  by_cases hs : s.testBit j = true
  · simp [hs, hpos]
  · simp [hs]

/-- The inner loop on one byte is the fold of the round over its eight bits,
most significant first. -/
theorem crc_16_bits_eq_foldl (CRCPOLY slice crc : Nat) :
    crc_16_bits CRCPOLY slice 8 0x80 crc = (byte_bits slice).foldl (crc_16_round CRCPOLY) crc := by
  have h7 : decide (slice &&& 128 ≠ 0) = slice.testBit 7 := and_two_pow_ne_zero slice 7
  have h6 : decide (slice &&& 64 ≠ 0) = slice.testBit 6 := and_two_pow_ne_zero slice 6
  have h5 : decide (slice &&& 32 ≠ 0) = slice.testBit 5 := and_two_pow_ne_zero slice 5
  have h4 : decide (slice &&& 16 ≠ 0) = slice.testBit 4 := and_two_pow_ne_zero slice 4
  have h3 : decide (slice &&& 8 ≠ 0) = slice.testBit 3 := and_two_pow_ne_zero slice 3
  have h2 : decide (slice &&& 4 ≠ 0) = slice.testBit 2 := and_two_pow_ne_zero slice 2
  have h1 : decide (slice &&& 2 ≠ 0) = slice.testBit 1 := and_two_pow_ne_zero slice 1
  have h0 : decide (slice &&& 1 ≠ 0) = slice.testBit 0 := and_two_pow_ne_zero slice 0
  have a7 : (128 >>> 1) % 256 = 64 := by decide
  have a6 : (64 >>> 1) % 256 = 32 := by decide
  have a5 : (32 >>> 1) % 256 = 16 := by decide
  have a4 : (16 >>> 1) % 256 = 8 := by decide
  have a3 : (8 >>> 1) % 256 = 4 := by decide
  have a2 : (4 >>> 1) % 256 = 2 := by decide
  have a1 : (2 >>> 1) % 256 = 1 := by decide
  have hz : ∀ a r, crc_16_bits CRCPOLY slice 0 a r = r := fun _ _ => rfl
  rw [crc_16_bits_succ CRCPOLY slice 7, h7, a7, crc_16_bits_succ CRCPOLY slice 6, h6, a6,
    crc_16_bits_succ CRCPOLY slice 5, h5, a5, crc_16_bits_succ CRCPOLY slice 4, h4, a4,
    crc_16_bits_succ CRCPOLY slice 3, h3, a3, crc_16_bits_succ CRCPOLY slice 2, h2, a2,
    crc_16_bits_succ CRCPOLY slice 1, h1, a1, crc_16_bits_succ CRCPOLY slice 0, h0, hz]
  rfl

/-- Reading a cell into the `unsigned char` `slice` keeps its eight bits. -/
theorem byte_bits_mod (b : Nat) : byte_bits (b % 256) = byte_bits b := by
  have h : ∀ i, i < 8 → (b % 256).testBit i = b.testBit i := by
    intro i hi
    rw [show (256 : Nat) = 2 ^ 8 from rfl, Nat.testBit_mod_two_pow]
    simp [hi]
  simp only [byte_bits, h 7 (by norm_num), h 6 (by norm_num), h 5 (by norm_num),
    h 4 (by norm_num), h 3 (by norm_num), h 2 (by norm_num), h 1 (by norm_num),
    h 0 (by norm_num)]

/-- The message loop is the fold of the round over the message bits. -/
theorem crc_16_message_eq_foldl (CRCPOLY : Nat) (msg : List Nat) :
    ∀ crc, crc_16_message CRCPOLY crc msg =
      (message_bits msg).foldl (crc_16_round CRCPOLY) crc := by
  induction msg with
  | nil => intro crc; rfl
  | cons b msg ih =>
    intro crc
    have hstep : crc_16_message CRCPOLY crc (b :: msg) =
        crc_16_message CRCPOLY (crc_16_bits CRCPOLY (b % 256) 8 0x80 crc) msg := rfl
    rw [hstep, ih, crc_16_bits_eq_foldl, byte_bits_mod]
    simp [message_bits, List.foldl_append]

/-- The message loop over a buffer in two parts. -/
theorem crc_16_message_append (CRCPOLY crc : Nat) (m1 m2 : List Nat) :
    crc_16_message CRCPOLY crc (m1 ++ m2) =
      crc_16_message CRCPOLY (crc_16_message CRCPOLY crc m1) m2 := by
  simp [crc_16_message, List.foldl_append]

/-- The flush loop in two parts. -/
theorem crc_16_flush_add (CRCPOLY m n crc : Nat) :
    crc_16_flush CRCPOLY (m + n) crc = crc_16_flush CRCPOLY n (crc_16_flush CRCPOLY m crc) := by
  rw [crc_16_flush_eq_foldl, crc_16_flush_eq_foldl, crc_16_flush_eq_foldl,
    List.replicate_add, List.foldl_append]

/-- On a zero byte the inner loop does what eight flush rounds do. -/
theorem crc_16_bits_zero_byte (CRCPOLY crc : Nat) :
    crc_16_bits CRCPOLY 0 8 0x80 crc = crc_16_flush CRCPOLY 8 crc := by
  rw [crc_16_bits_eq_foldl, crc_16_flush_eq_foldl]
  rfl

/-- The message loop over `k` zero bytes does what `8 * k` flush rounds do. -/
theorem crc_16_message_zero_bytes (CRCPOLY : Nat) :
    ∀ (k crc : Nat), crc_16_message CRCPOLY crc (List.replicate k 0) =
      crc_16_flush CRCPOLY (8 * k) crc := by
  intro k
  induction k with
  | zero => intro crc; rfl
  | succ k ih =>
    intro crc
    have hstep : crc_16_message CRCPOLY crc (List.replicate (k + 1) 0) =
        crc_16_message CRCPOLY (crc_16_bits CRCPOLY (0 % 256) 8 0x80 crc)
          (List.replicate k 0) := rfl
    rw [hstep, ih, show (0 % 256 : Nat) = 0 from rfl, crc_16_bits_zero_byte,
      show 8 * (k + 1) = 8 + 8 * k by ring, crc_16_flush_add]

/-- A round leaves a 16-bit register. -/
theorem crc_16_round_lt (CRCPOLY crc : Nat) (msgbit : Bool) :
    crc_16_round CRCPOLY crc msgbit < 65536 := by
  have h1 : ∀ x : Nat, x % 65536 < 65536 := fun x => Nat.mod_lt _ (by norm_num)
  unfold crc_16_round
  by_cases hc : crc &&& 0x8000 ≠ 0 <;> cases msgbit <;> simp [hc, h1]

/-- A fold of rounds keeps a 16-bit register 16-bit. -/
theorem crc_16_rounds_lt (CRCPOLY : Nat) (bits : List Bool) :
    ∀ crc, crc < 65536 → bits.foldl (crc_16_round CRCPOLY) crc < 65536 := by
  induction bits with
  | nil => intro crc h; exact h
  | cons b bits ih => intro crc _; exact ih _ (crc_16_round_lt CRCPOLY crc b)

/-- Reduction modulo a power of two goes through exclusive or. -/
theorem xor_mod_two_pow (a b n : Nat) : (a ^^^ b) % 2 ^ n = a % 2 ^ n ^^^ b % 2 ^ n := by
  apply Nat.eq_of_testBit_eq
  intro i
  simp only [Nat.testBit_mod_two_pow, Nat.testBit_xor]
  by_cases hi : i < n <;> simp [hi]

/-- A left shift goes through exclusive or. -/
theorem shiftLeft_xor (a b k : Nat) : (a ^^^ b) <<< k = a <<< k ^^^ b <<< k := by
  apply Nat.eq_of_testBit_eq
  intro i
  simp only [Nat.testBit_shiftLeft, Nat.testBit_xor]
  by_cases hi : i ≥ k <;> simp [hi]

/-- Adding a bit to an even number is the exclusive or with it. -/
theorem even_add_bit (x : Nat) (hx : x % 2 = 0) (b : Bool) : x + b.toNat = x ^^^ b.toNat := by
  cases b with
  | false => simp
  | true =>
    obtain ⟨k, rfl⟩ : ∃ k, x = 2 ^ 1 * k := ⟨x / 2, by omega⟩
    rw [show (true.toNat) = 1 from rfl, Nat.mul_add_lt_is_or (by norm_num : 1 < 2 ^ 1)]
    apply Nat.eq_of_testBit_eq
    intro i
    rw [Nat.testBit_or, Nat.testBit_xor]
    cases i with
    | zero => simp [Nat.testBit_zero]
    | succ i => simp [Nat.testBit_succ]

/-- The carry test of a round reads bit 15 of the register. -/
theorem carry_iff_testBit (crc : Nat) : crc &&& 0x8000 ≠ 0 ↔ crc.testBit 15 = true := by
  have h := and_two_pow_ne_zero crc 15
  rw [show (2 : Nat) ^ 15 = 0x8000 from rfl] at h
  rw [← h]
  simp

/-- A round is one exclusive or: the shifted register, the message bit and,
when bit 15 was set, the polynomial, reduced to 16 bits. -/
theorem crc_16_round_eq_xor (CRCPOLY crc : Nat) (msgbit : Bool) :
    crc_16_round CRCPOLY crc msgbit =
      ((crc <<< 1 ^^^ msgbit.toNat) ^^^ (if crc.testBit 15 then CRCPOLY else 0)) % 65536 := by
  have hm := xor_mod_two_pow
  have hshift : (crc <<< 1) % 65536 % 2 = 0 := by
    rw [Nat.shiftLeft_eq]; omega
  have hlt : (crc <<< 1) % 65536 + msgbit.toNat < 65536 := by
    have : msgbit.toNat ≤ 1 := by cases msgbit <;> simp
    omega
  have hbit : msgbit.toNat % 65536 = msgbit.toNat := by
    cases msgbit <;> rfl
  have hc2 : (if msgbit then ((crc <<< 1) % 65536 + 1) % 65536 else (crc <<< 1) % 65536)
      = (crc <<< 1 ^^^ msgbit.toNat) % 65536 := by
    rw [show (65536 : Nat) = 2 ^ 16 from rfl, xor_mod_two_pow, ← show (65536 : Nat) = 2 ^ 16 from rfl,
      hbit, ← even_add_bit _ hshift]
    cases msgbit with
    | false => simp
    | true => exact Nat.mod_eq_of_lt hlt
  unfold crc_16_round
  simp only [hc2]
  by_cases hc : crc &&& 0x8000 ≠ 0
  · have ht : crc.testBit 15 = true := (carry_iff_testBit crc).mp hc
    simp only [hc, ht, if_true, ne_eq, one_ne_zero, not_false_eq_true]
    rw [show (65536 : Nat) = 2 ^ 16 from rfl, xor_mod_two_pow, Nat.mod_mod, ← xor_mod_two_pow]
  · have ht : crc.testBit 15 = false := by
      have := (carry_iff_testBit crc).not.mp hc
      simpa using this
    simp [hc, ht]

/-- A round on a register changed in its low 15 bits by `t`: the result of the
round without message bit, changed by the shifted `t` and the message bit. -/
theorem crc_16_round_xor_low (CRCPOLY crc t : Nat) (msgbit : Bool) (ht : t < 2 ^ 15) :
    crc_16_round CRCPOLY (crc ^^^ t) msgbit =
      crc_16_round CRCPOLY crc false ^^^ (2 * t + msgbit.toNat) := by
  have hbit : msgbit.toNat ≤ 1 := by cases msgbit <;> simp
  have ht15 : t.testBit 15 = false := Nat.testBit_lt_two_pow ht
  have hcarry : (crc ^^^ t).testBit 15 = crc.testBit 15 := by
    rw [Nat.testBit_xor, ht15]; simp
  have hlow : 2 * t + msgbit.toNat = t <<< 1 ^^^ msgbit.toNat := by
    rw [Nat.shiftLeft_eq, ← even_add_bit _ (by omega)]
    omega
  have hlt : (2 * t + msgbit.toNat) % 2 ^ 16 = 2 * t + msgbit.toNat :=
    Nat.mod_eq_of_lt (by omega)
  have hsplit : ∀ a : Nat, (a ^^^ (2 * t + msgbit.toNat)) % 2 ^ 16
      = a % 2 ^ 16 ^^^ (2 * t + msgbit.toNat) := by
    intro a
    rw [xor_mod_two_pow, hlt]
  rw [crc_16_round_eq_xor, crc_16_round_eq_xor, hcarry, shiftLeft_xor,
    show (65536 : Nat) = 2 ^ 16 from rfl, ← hsplit, hlow]
  apply congrArg (fun x => x % 2 ^ 16)
  simp only [Bool.toNat_false, Nat.xor_zero]
  ac_rfl

/-- With or without the message bit, a round gives different registers. -/
theorem crc_16_round_bit_ne (CRCPOLY crc : Nat) (msgbit : Bool) :
    crc_16_round CRCPOLY crc msgbit ≠ crc_16_round CRCPOLY crc (!msgbit) := by
  have h1 := crc_16_round_xor_low CRCPOLY crc 0 msgbit (by norm_num)
  have h2 := crc_16_round_xor_low CRCPOLY crc 0 (!msgbit) (by norm_num)
  rw [Nat.xor_zero] at h1 h2
  rw [h1, h2]
  intro h
  have := Nat.xor_right_injective h
  cases msgbit <;> simp at this

/-- On a whole buffer of at most 65535 bytes, with fuel for its guard
evaluations, `crc_16` returns the flushed register of the message loop. -/
theorem crc_16_whole_buffer (CRCPOLY : Nat) (b : List Nat) (hb : b.length ≤ 65535)
    (fuel : Nat) (hf : b.length < fuel) :
    crc_16 fuel CRCPOLY b (b.length : Int) =
      Run.done (crc_16_flush CRCPOLY 16 (crc_16_message CRCPOLY 0xFFFF b)) := by
  rw [crc_16_eq CRCPOLY b b.length hb (le_refl _) fuel, if_neg (by omega), List.take_length]

/-- Message bits that enter a register changed in its low bits by `t`: as long
as nothing of `t` reaches bit 15, the rounds act on the register as if no bit
had entered, and `t` followed by the bits is carried along unchanged. -/
theorem crc_16_rounds_xor_low (CRCPOLY : Nat) (bits : List Bool) :
    ∀ (crc t : Nat), bits.length ≤ 16 → t < 2 ^ (16 - bits.length) →
      bits.foldl (crc_16_round CRCPOLY) (crc ^^^ t) =
        (List.replicate bits.length false).foldl (crc_16_round CRCPOLY) crc ^^^
          bits.foldl (fun a b => 2 * a + b.toNat) t := by
  induction bits with
  | nil => intro crc t _ _; rfl
  | cons b bits ih =>
    intro crc t hlen ht
    have hl : bits.length + 1 ≤ 16 := by simpa using hlen
    have ht' : t < 2 ^ (15 - bits.length) := by
      have : 16 - (b :: bits).length = 15 - bits.length := by
        rw [List.length_cons]; omega
      rwa [this] at ht
    have ht15 : t < 2 ^ 15 :=
      Nat.lt_of_lt_of_le ht' (Nat.pow_le_pow_right (by norm_num) (by omega))
    have hb1 : b.toNat ≤ 1 := by cases b <;> simp
    have hnext : 2 * t + b.toNat < 2 ^ (16 - bits.length) := by
      have hp : 2 ^ (16 - bits.length) = 2 * 2 ^ (15 - bits.length) := by
        rw [show 16 - bits.length = (15 - bits.length) + 1 by omega, Nat.pow_succ,
          Nat.mul_comm]
      omega
    rw [List.foldl_cons, crc_16_round_xor_low CRCPOLY crc t b ht15,
      ih _ _ (by omega) hnext]
    simp [List.replicate_succ]

/-- The bits of `c >> 8` followed by the bits of `c & 0xFF` are the sixteen low
bits of `c`, most significant first. -/
theorem message_bits_hi_lo (c : Nat) :
    message_bits [c >>> 8, c &&& 0xFF] =
      [c.testBit 15, c.testBit 14, c.testBit 13, c.testBit 12, c.testBit 11, c.testBit 10,
       c.testBit 9, c.testBit 8, c.testBit 7, c.testBit 6, c.testBit 5, c.testBit 4,
       c.testBit 3, c.testBit 2, c.testBit 1, c.testBit 0] := by
  have hlo : ∀ i, i < 8 → (c &&& 0xFF).testBit i = c.testBit i := by
    intro i hi
    rw [show (0xFF : Nat) = 2 ^ 8 - 1 from rfl, Nat.and_pow_two_sub_one_eq_mod,
      Nat.testBit_mod_two_pow]
    simp [hi]
  simp [message_bits, byte_bits, Nat.testBit_shiftRight, hlo]

/-- The value of a bit as a number. -/
theorem testBit_toNat (c j : Nat) : (c.testBit j).toNat = c / 2 ^ j % 2 := by
  rw [Nat.testBit_to_div_mod]
  have h : c / 2 ^ j % 2 = 0 ∨ c / 2 ^ j % 2 = 1 := by omega
  rcases h with h | h <;> simp [h]

/-- The number denoted by the `n` low bits of `c`, read most significant first
after the digits already in `a`. -/
theorem bits_value_aux (c : Nat) : ∀ (n a : Nat),
    (((List.range n).reverse.map c.testBit).foldl (fun a b => 2 * a + b.toNat) a)
      = a * 2 ^ n + c % 2 ^ n := by
  intro n
  induction n with
  | zero => intro a; simp [Nat.mod_one]
  | succ n ih =>
    intro a
    rw [List.range_succ, List.reverse_append, List.reverse_singleton, List.singleton_append,
      List.map_cons, List.foldl_cons, ih, testBit_toNat, Nat.mod_pow_succ]
    ring

/-- Sixteen bits read most significant first give back a 16-bit number. -/
theorem bits_value_16 (c : Nat) (hc : c < 65536) :
    [c.testBit 15, c.testBit 14, c.testBit 13, c.testBit 12, c.testBit 11, c.testBit 10,
     c.testBit 9, c.testBit 8, c.testBit 7, c.testBit 6, c.testBit 5, c.testBit 4,
     c.testBit 3, c.testBit 2, c.testBit 1, c.testBit 0].foldl
      (fun a b => 2 * a + b.toNat) 0 = c := by
  have h := bits_value_aux c 16 0
  have hl : (List.range 16).reverse.map c.testBit =
    [c.testBit 15, c.testBit 14, c.testBit 13, c.testBit 12, c.testBit 11, c.testBit 10,
     c.testBit 9, c.testBit 8, c.testBit 7, c.testBit 6, c.testBit 5, c.testBit 4,
     c.testBit 3, c.testBit 2, c.testBit 1, c.testBit 0] := by rfl
  rw [hl] at h
  rw [h, Nat.zero_mul, Nat.zero_add]
  exact Nat.mod_eq_of_lt hc

/-- A round on the zero register without message bit leaves it zero. -/
theorem crc_16_flush_zero (CRCPOLY : Nat) : ∀ n, crc_16_flush CRCPOLY n 0 = 0 := by
  intro n
  induction n with
  | zero => rfl
  | succ n ih =>
    rw [crc_16_flush_succ]
    have h0 : crc_16_round CRCPOLY 0 false = 0 := by simp [crc_16_round]
    rw [h0, ih]

/-- After the message loop has consumed a message followed by its own flushed
register, high byte first, the register is zero. -/
theorem crc_16_message_residue (CRCPOLY crc : Nat) (b : List Nat) :
    crc_16_message CRCPOLY crc
      (b ++ [crc_16_flush CRCPOLY 16 (crc_16_message CRCPOLY crc b) >>> 8,
             crc_16_flush CRCPOLY 16 (crc_16_message CRCPOLY crc b) &&& 0xFF]) = 0 := by
  generalize hr : crc_16_message CRCPOLY crc b = r
  have hc : crc_16_flush CRCPOLY 16 r < 65536 := crc_16_flush_succ_lt CRCPOLY 15 r
  generalize hcv : crc_16_flush CRCPOLY 16 r = c at hc
  rw [crc_16_message_append, hr, crc_16_message_eq_foldl, message_bits_hi_lo]
  have h := crc_16_rounds_xor_low CRCPOLY
    [c.testBit 15, c.testBit 14, c.testBit 13, c.testBit 12, c.testBit 11, c.testBit 10,
     c.testBit 9, c.testBit 8, c.testBit 7, c.testBit 6, c.testBit 5, c.testBit 4,
     c.testBit 3, c.testBit 2, c.testBit 1, c.testBit 0] r 0 (by simp) (by simp)
  rw [Nat.xor_zero, bits_value_16 c hc] at h
  rw [h]
  have hfl : (List.replicate 16 false).foldl (crc_16_round CRCPOLY) r = c := by
    rw [← crc_16_flush_eq_foldl, hcv]
  simp only [List.length_cons, List.length_nil] at *
  rw [hfl, Nat.xor_self]

/-- Parity of an exclusive or with an odd number. -/
theorem xor_odd_parity (a p : Nat) (ha : a % 2 = 0) (hp : p % 2 = 1) : (a ^^^ p) % 2 = 1 := by
  have h := xor_mod_two_pow a p 1
  rw [Nat.pow_one, ha, hp] at h
  rw [h]
  rfl

/-- Bit 15 of a 16-bit register is set from 32768 on. -/
theorem testBit_15_iff (r : Nat) (hr : r < 65536) : r.testBit 15 = true ↔ 32768 ≤ r := by
  rw [Nat.testBit_to_div_mod, decide_eq_true_eq]
  omega

/-- With an odd polynomial a round is injective on 16-bit registers: two
different registers stay different when the same message bit enters. -/
theorem crc_16_round_injective (CRCPOLY : Nat) (hodd : CRCPOLY % 2 = 1) (r r' : Nat)
    (hr : r < 65536) (hr' : r' < 65536) (msgbit : Bool)
    (h : crc_16_round CRCPOLY r msgbit = crc_16_round CRCPOLY r' msgbit) : r = r' := by
  rw [crc_16_round_eq_xor, crc_16_round_eq_xor, show (65536 : Nat) = 2 ^ 16 from rfl,
    xor_mod_two_pow, xor_mod_two_pow (r' <<< 1 ^^^ msgbit.toNat), xor_mod_two_pow (r <<< 1),
    xor_mod_two_pow (r' <<< 1)] at h
  have hbit : msgbit.toNat ≤ 1 := by cases msgbit <;> simp
  have hb : msgbit.toNat % 2 ^ 16 = msgbit.toNat := Nat.mod_eq_of_lt (by omega)
  have e : r <<< 1 % 2 ^ 16 = 2 * r % 65536 := by rw [Nat.shiftLeft_eq]; omega
  have e' : r' <<< 1 % 2 ^ 16 = 2 * r' % 65536 := by rw [Nat.shiftLeft_eq]; omega
  have hp : CRCPOLY % 2 ^ 16 % 2 = 1 := by omega
  rw [hb, e, e', ← even_add_bit _ (by omega), ← even_add_bit _ (by omega)] at h
  have hmixed : ∀ a a' : Nat, a % 2 = 0 → a' % 2 = 0 →
      (a + msgbit.toNat ^^^ CRCPOLY % 2 ^ 16) ≠ a' + msgbit.toNat := by
    intro a a' ha ha' hx
    have h4 := xor_mod_two_pow (a + msgbit.toNat) (CRCPOLY % 2 ^ 16) 1
    rw [Nat.pow_one, hp, hx] at h4
    have hcases : msgbit.toNat = 0 ∨ msgbit.toNat = 1 := by omega
    rcases hcases with h0 | h1
    · rw [h0] at h4
      have e1 : (a' + 0) % 2 = 0 := by omega
      have e2 : (a + 0) % 2 = 0 := by omega
      rw [e1, e2] at h4
      exact absurd h4 (by decide)
    · rw [h1] at h4
      have e1 : (a' + 1) % 2 = 1 := by omega
      have e2 : (a + 1) % 2 = 1 := by omega
      rw [e1, e2] at h4
      exact absurd h4 (by decide)
  have hc := testBit_15_iff r hr
  have hc' := testBit_15_iff r' hr'
  by_cases hcr : r.testBit 15 = true <;> by_cases hcr' : r'.testBit 15 = true
  · simp only [hcr, hcr', if_true] at h
    have h2 := Nat.xor_left_injective h
    have := hc.mp hcr
    have := hc'.mp hcr'
    omega
  · simp only [hcr, hcr', if_true, if_false, Bool.false_eq_true, Nat.zero_mod,
      Nat.xor_zero] at h
    exact absurd h (hmixed _ _ (by omega) (by omega))
  · simp only [hcr, hcr', if_true, if_false, Bool.false_eq_true, Nat.zero_mod,
      Nat.xor_zero] at h
    exact absurd h.symm (hmixed _ _ (by omega) (by omega))
  · simp only [hcr, hcr', if_false, Bool.false_eq_true, Nat.zero_mod, Nat.xor_zero] at h
    have := mt hc.mpr hcr
    have := mt hc'.mpr hcr'
    omega

/-- With an odd polynomial, two different 16-bit registers stay different
through any sequence of rounds fed with the same message bits. -/
theorem crc_16_rounds_injective (CRCPOLY : Nat) (hodd : CRCPOLY % 2 = 1) (bits : List Bool) :
    ∀ (r r' : Nat), r < 65536 → r' < 65536 → r ≠ r' →
      bits.foldl (crc_16_round CRCPOLY) r ≠ bits.foldl (crc_16_round CRCPOLY) r' := by
  induction bits with
  | nil => intro r r' _ _ h; exact h
  | cons b bits ih =>
    intro r r' hr hr' h
    rw [List.foldl_cons, List.foldl_cons]
    exact ih _ _ (crc_16_round_lt _ _ _) (crc_16_round_lt _ _ _)
      (fun he => h (crc_16_round_injective CRCPOLY hodd r r' hr hr' b he))

/-- With an odd polynomial, negating one message bit changes the register
after all the rounds. -/
theorem crc_16_rounds_flip (CRCPOLY : Nat) (hodd : CRCPOLY % 2 = 1)
    (pre post : List Bool) (y : Bool) (r : Nat) :
    (pre ++ y :: post).foldl (crc_16_round CRCPOLY) r ≠
      (pre ++ (!y) :: post).foldl (crc_16_round CRCPOLY) r := by
  rw [List.foldl_append, List.foldl_append, List.foldl_cons, List.foldl_cons]
  exact crc_16_rounds_injective CRCPOLY hodd post _ _ (crc_16_round_lt _ _ _)
    (crc_16_round_lt _ _ _) (crc_16_round_bit_ne CRCPOLY _ y)

/-- Bit `i` of a number changed by a one-bit mask. -/
theorem testBit_xor_two_pow (x a i : Nat) :
    (x ^^^ 2 ^ a).testBit i = (x.testBit i ^^ decide (a = i)) := by
  rw [Nat.testBit_xor, Nat.testBit_two_pow]

/-- The bits of a byte changed by the mask `0x80 >> j`: the same bits with the
one at position `j` negated. -/
theorem byte_bits_flip (x j : Nat) (hj : j < 8) :
    ∃ pre y post, byte_bits x = pre ++ y :: post ∧
      byte_bits (x ^^^ (0x80 >>> j)) = pre ++ (!y) :: post := by
  refine ⟨(byte_bits x).take j, x.testBit (7 - j), (byte_bits x).drop (j + 1), ?_, ?_⟩
  · interval_cases j <;> rfl
  · have h7 : (0x80 >>> 0 : Nat) = 2 ^ 7 := rfl
    have h6 : (0x80 >>> 1 : Nat) = 2 ^ 6 := rfl
    have h5 : (0x80 >>> 2 : Nat) = 2 ^ 5 := rfl
    have h4 : (0x80 >>> 3 : Nat) = 2 ^ 4 := rfl
    have h3 : (0x80 >>> 4 : Nat) = 2 ^ 3 := rfl
    have h2 : (0x80 >>> 5 : Nat) = 2 ^ 2 := rfl
    have h1 : (0x80 >>> 6 : Nat) = 2 ^ 1 := rfl
    have h0 : (0x80 >>> 7 : Nat) = 2 ^ 0 := rfl
    interval_cases j
    · rw [h7]; simp only [byte_bits, testBit_xor_two_pow]; simp
    · rw [h6]; simp only [byte_bits, testBit_xor_two_pow]; simp
    · rw [h5]; simp only [byte_bits, testBit_xor_two_pow]; simp
    · rw [h4]; simp only [byte_bits, testBit_xor_two_pow]; simp
    · rw [h3]; simp only [byte_bits, testBit_xor_two_pow]; simp
    · rw [h2]; simp only [byte_bits, testBit_xor_two_pow]; simp
    · rw [h1]; simp only [byte_bits, testBit_xor_two_pow]; simp
    · rw [h0]; simp only [byte_bits, testBit_xor_two_pow]; simp

/-- The message bits of a buffer with one bit flipped: the same bits with one
of them negated. -/
theorem message_bits_flip (b : List Nat) (k : Nat) (hk : k < 8 * b.length) :
    ∃ pre y post, message_bits b = pre ++ y :: post ∧
      message_bits (flip_bit b k) = pre ++ (!y) :: post := by
  have hi : k / 8 < b.length := by omega
  obtain ⟨bpre, y, bpost, h1, h2⟩ := byte_bits_flip (b[k / 8]) (k % 8) (Nat.mod_lt _ (by norm_num))
  have hb : b = b.take (k / 8) ++ b[k / 8] :: b.drop (k / 8 + 1) := by
    rw [← List.drop_eq_getElem_cons hi, List.take_append_drop]
  have hget : b.getD (k / 8) 0 = b[k / 8] := by
    simp [List.getD_eq_getElem?_getD, List.getElem?_eq_getElem hi]
  have hf : flip_bit b k =
      b.take (k / 8) ++ (b[k / 8] ^^^ (0x80 >>> (k % 8))) :: b.drop (k / 8 + 1) := by
    unfold flip_bit
    rw [List.set_eq_take_append_cons_drop, if_pos hi, hget]
  refine ⟨message_bits (b.take (k / 8)) ++ bpre, y,
    bpost ++ message_bits (b.drop (k / 8 + 1)), ?_, ?_⟩
  · have e1 : message_bits b = message_bits (b.take (k / 8)) ++
        (byte_bits b[k / 8] ++ message_bits (b.drop (k / 8 + 1))) := by
      conv_lhs => rw [hb]
      simp only [message_bits, List.flatMap_append, List.flatMap_cons]
    rw [e1, h1]
    simp only [List.append_assoc, List.cons_append]
  · rw [hf]
    simp only [message_bits, List.flatMap_append, List.flatMap_cons, h2, List.append_assoc,
      List.cons_append]

/-- The round of the specification computes what the round of the source
computes, for a 16-bit polynomial. -/
theorem spec_crc16_round_eq (polynomial register : Nat) (msgbit : Bool)
    (hp : polynomial < 65536) :
    spec_crc16_round polynomial register msgbit = crc_16_round polynomial register msgbit := by
  have hmask : (register <<< 1) &&& 0xFFFF = (register <<< 1) % 65536 := by
    rw [show (0xFFFF : Nat) = 2 ^ 16 - 1 from rfl, Nat.and_pow_two_sub_one_eq_mod]
  have hlt : (register <<< 1) % 65536 < 65536 := Nat.mod_lt _ (by norm_num)
  have heven : (register <<< 1) % 65536 % 2 = 0 := by rw [Nat.shiftLeft_eq]; omega
  have hor : (register <<< 1) % 65536 ||| 1 = (register <<< 1) % 65536 + 1 := by
    obtain ⟨k, hk⟩ : ∃ k, (register <<< 1) % 65536 = 2 ^ 1 * k :=
      ⟨(register <<< 1) % 65536 / 2, by omega⟩
    rw [hk, Nat.mul_add_lt_is_or (by norm_num : 1 < 2 ^ 1)]
  have hadd : ((register <<< 1) % 65536 + 1) % 65536 = (register <<< 1) % 65536 + 1 :=
    Nat.mod_eq_of_lt (by omega)
  have hx : ∀ a : Nat, a < 65536 → (a ^^^ polynomial) % 65536 = a ^^^ polynomial := by
    intro a ha
    exact Nat.mod_eq_of_lt (Nat.xor_lt_two_pow (n := 16) ha hp)
  unfold spec_crc16_round crc_16_round
  simp only [hmask, hor, hadd]
  by_cases hc : register &&& 0x8000 ≠ 0
  · have ht : register.testBit 15 = true := (carry_iff_testBit register).mp hc
    cases msgbit
    · simp [hc, ht, hx _ hlt]
    · simp [hc, ht, hx _ (by omega : (register <<< 1) % 65536 + 1 < 65536)]
  · have ht : register.testBit 15 = false := by
      have := (carry_iff_testBit register).not.mp hc
      simpa using this
    cases msgbit <;> simp [hc, ht]

/-- The byte step of the specification is the fold of its round over the bits
of the byte, most significant first. -/
theorem spec_crc16_byte_eq (polynomial register byte : Nat) :
    spec_crc16_byte polynomial register byte =
      (byte_bits byte).foldl (spec_crc16_round polynomial) register := rfl

/-- For a 16-bit polynomial the algorithm of the specification computes the
flushed register of the message loop of the source. -/
theorem spec_crc16_eq (buffer : List Nat) (polynomial : Nat) (hp : polynomial < 65536) :
    spec_crc16 buffer polynomial =
      crc_16_flush polynomial 16 (crc_16_message polynomial 0xFFFF buffer) := by
  have hround : spec_crc16_round polynomial = crc_16_round polynomial := by
    funext r b
    exact spec_crc16_round_eq polynomial r b hp
  have hbyte : spec_crc16_byte polynomial =
      fun crc b => crc_16_bits polynomial (b % 256) 8 0x80 crc := by
    funext r b
    rw [spec_crc16_byte_eq, hround, crc_16_bits_eq_foldl, byte_bits_mod]
  have hflush : ∀ r, (List.range 16).foldl
      (fun register _ => spec_crc16_round polynomial register false) r
        = (List.replicate 16 false).foldl (spec_crc16_round polynomial) r := fun _ => rfl
  unfold spec_crc16
  simp only [hflush, hbyte]
  rw [hround, ← crc_16_flush_eq_foldl]
  rfl

/-- On every buffer of at most 65535 bytes and for every 16-bit polynomial,
`crc_16` returns what the algorithm of the specification returns. -/
theorem crc_16_refines_spec (CRCPOLY : Nat) (b : List Nat) (hp : CRCPOLY < 65536)
    (hb : b.length ≤ 65535) (fuel : Nat) (hf : b.length < fuel) :
    crc_16 fuel CRCPOLY b (b.length : Int) = Run.done (spec_crc16 b CRCPOLY) := by
  rw [crc_16_whole_buffer CRCPOLY b hb fuel hf, spec_crc16_eq b CRCPOLY hp]

/-- On every buffer of at most 65535 bytes, `crc_16` returns the register of the
message loop alone run over the buffer followed by two zero bytes. -/
theorem crc_16_eq_message_two_zero_bytes (CRCPOLY : Nat) (b : List Nat)
    (hb : b.length ≤ 65535) (fuel : Nat) (hf : b.length < fuel) :
    crc_16 fuel CRCPOLY b (b.length : Int) =
      Run.done (crc_16_message CRCPOLY 0xFFFF (b ++ [0, 0])) := by
  rw [crc_16_whole_buffer CRCPOLY b hb fuel hf, crc_16_message_append,
    show ([0, 0] : List Nat) = List.replicate 2 0 from rfl, crc_16_message_zero_bytes]

/-! ## The flush, single-bit errors, zero padding and the residue -/

/-- C11 (the code at the failing input): on a buffer of 65536 bytes with
`len = 65536`, `crc_16` does not return the register of the message loop run
over the buffer followed by two zero bytes, for any fuel and any polynomial:
it does not return at all. On every buffer of at most 65535 bytes it does
return that register (`crc_16_eq_message_two_zero_bytes`). -/
theorem crc_16_two_zero_bytes_long_buffer (fuel CRCPOLY : Nat) :
    crc_16 fuel CRCPOLY (List.replicate 65536 0) 65536 ≠
      Run.done (crc_16_message CRCPOLY 0xFFFF (List.replicate 65536 0 ++ [0, 0])) := by
  unfold crc_16
  rw [crc_16_loop_never_exits CRCPOLY (List.replicate 65536 0) 65536 (le_refl _)
    (by rw [List.length_replicate]) fuel 0 0xFFFF (by norm_num)]
  intro h
  cases h

/-- C12 (the code at the failing input): on a buffer of 65536 bytes with
`len = 65536`, `crc_16` does not return the value of the algorithm of the
specification, for any fuel and any polynomial: it does not return at all.
On every buffer of at most 65535 bytes and for every 16-bit polynomial the two
agree (`crc_16_refines_spec`). -/
theorem crc_16_spec_long_buffer (fuel CRCPOLY : Nat) :
    crc_16 fuel CRCPOLY (List.replicate 65536 0) 65536 ≠
      Run.done (spec_crc16 (List.replicate 65536 0) CRCPOLY) := by
  unfold crc_16
  rw [crc_16_loop_never_exits CRCPOLY (List.replicate 65536 0) 65536 (le_refl _)
    (by rw [List.length_replicate]) fuel 0 0xFFFF (by norm_num)]
  intro h
  cases h

/-- C13: single-bit error detection. With polynomial 0x1021, for every buffer
`b` of `n ≤ 65535` bytes and every bit position `k < 8 * n` (so `n ≥ 1`),
`crc_16` returns on `b` and on `b` with bit `k` flipped, and the two values
differ. -/
theorem crc_16_single_bit_flip (b : List Nat) (k : Nat) (hn : b.length ≤ 65535)
    (hk : k < 8 * b.length) :
    ∃ c c', crc_16 (b.length + 1) 0x1021 b (b.length : Int) = Run.done c ∧
      crc_16 (b.length + 1) 0x1021 (flip_bit b k) ((flip_bit b k).length : Int) = Run.done c' ∧
      c ≠ c' := by
  have hlen : (flip_bit b k).length = b.length := by simp [flip_bit]
  refine ⟨_, _, crc_16_whole_buffer 0x1021 b hn _ (by omega),
    crc_16_whole_buffer 0x1021 (flip_bit b k) (by omega) _ (by omega), ?_⟩
  obtain ⟨pre, y, post, h1, h2⟩ := message_bits_flip b k hk
  rw [crc_16_flush_eq_foldl, crc_16_flush_eq_foldl, crc_16_message_eq_foldl,
    crc_16_message_eq_foldl, ← List.foldl_append, ← List.foldl_append, h1, h2,
    List.append_assoc, List.append_assoc, List.cons_append, List.cons_append]
  exact crc_16_rounds_flip 0x1021 (by norm_num) pre _ y 0xFFFF

/-- C13 (witness): the last bit of "123456789" flipped. -/
theorem crc_16_single_bit_flip_witness :
    check_123456789.length ≤ 65535 ∧ 71 < 8 * check_123456789.length ∧
      ∃ c c', crc_16 (check_123456789.length + 1) 0x1021 check_123456789
          (check_123456789.length : Int) = Run.done c ∧
        crc_16 (check_123456789.length + 1) 0x1021 (flip_bit check_123456789 71)
          ((flip_bit check_123456789 71).length : Int) = Run.done c' ∧
        c ≠ c' :=
  ⟨by decide, by decide, crc_16_single_bit_flip check_123456789 71 (by decide) (by decide)⟩

set_option maxRecDepth 100000 in
/-- The flushed register of the one-byte message `00`, polynomial 0x1021. -/
theorem crc_16_zero_byte_register :
    crc_16_flush 0x1021 16 (crc_16_message 0x1021 0xFFFF [0]) = 0xCC9C := by decide

/-- C14 (counterexample): with polynomial 0x1021, the empty buffer followed by
one zero byte and the empty buffer itself have no common `crc_16` value,
whatever the fuel: the first gives 0xCC9C, the second 0x1D0F. -/
theorem crc_16_zero_padding_changes_crc :
    ¬ ∃ c, (∃ fuel, crc_16 fuel 0x1021 ([] ++ List.replicate 1 0) 1 = Run.done c) ∧
      (∃ fuel, crc_16 fuel 0x1021 [] 0 = Run.done c) := by
  rintro ⟨c, ⟨f1, h1⟩, ⟨f2, h2⟩⟩
  have e1 := crc_16_eq 0x1021 ([] ++ List.replicate 1 0) 1 (by norm_num) (by simp) f1
  have e2 := crc_16_eq 0x1021 [] 0 (by norm_num) (by simp) f2
  have v1 : crc_16_flush 0x1021 16 (crc_16_message 0x1021 0xFFFF
      (([] ++ List.replicate 1 0 : List Nat).take 1)) = 0xCC9C := crc_16_zero_byte_register
  have v2 : crc_16_flush 0x1021 16 (crc_16_message 0x1021 0xFFFF (([] : List Nat).take 0))
      = 0x1D0F := crc_16_flush_init
  rw [v1] at e1
  rw [v2] at e2
  have e1' : crc_16 f1 0x1021 ([] ++ List.replicate 1 0) 1
      = if f1 ≤ 1 then Run.outOfFuel else Run.done 0xCC9C := by exact_mod_cast e1
  have e2' : crc_16 f2 0x1021 [] 0
      = if f2 ≤ 0 then Run.outOfFuel else Run.done 0x1D0F := by exact_mod_cast e2
  rw [e1'] at h1
  rw [e2'] at h2
  split at h1
  · cases h1
  · split at h2
    · cases h2
    · injection h1 with h1
      injection h2 with h2
      rw [← h1] at h2
      exact absurd h2 (by decide)

/-- C14 (as the code behaves): for every polynomial, every buffer `b` and every
`k` with `b.length + k ≤ 65535`, `crc_16` returns on `b` and on `b` followed
by `k` zero bytes, and the second value is the first one pushed through
`8 * k` further rounds of the flush loop. -/
theorem crc_16_trailing_zero_bytes (CRCPOLY : Nat) (b : List Nat) (k : Nat)
    (h : b.length + k ≤ 65535) :
    ∃ c, crc_16 (b.length + 1) CRCPOLY b (b.length : Int) = Run.done c ∧
      crc_16 (b.length + k + 1) CRCPOLY (b ++ List.replicate k 0)
        ((b ++ List.replicate k 0).length : Int) = Run.done (crc_16_flush CRCPOLY (8 * k) c) := by
  have hlen : (b ++ List.replicate k 0).length = b.length + k := by simp
  refine ⟨_, crc_16_whole_buffer CRCPOLY b (by omega) _ (by omega), ?_⟩
  rw [crc_16_whole_buffer CRCPOLY (b ++ List.replicate k 0) (by omega) _ (by omega),
    crc_16_message_append, crc_16_message_zero_bytes, ← crc_16_flush_add, ← crc_16_flush_add,
    Nat.add_comm]

/-- C14 (witness): "123456789" followed by two zero bytes. -/
theorem crc_16_trailing_zero_bytes_witness :
    check_123456789.length + 2 ≤ 65535 ∧
      ∃ c, crc_16 (check_123456789.length + 1) 0x1021 check_123456789
          (check_123456789.length : Int) = Run.done c ∧
        crc_16 (check_123456789.length + 2 + 1) 0x1021 (check_123456789 ++ List.replicate 2 0)
          ((check_123456789 ++ List.replicate 2 0).length : Int)
            = Run.done (crc_16_flush 0x1021 (8 * 2) c) :=
  ⟨by decide, crc_16_trailing_zero_bytes 0x1021 check_123456789 2 (by decide)⟩

/-- C15: CRC residue. For every polynomial and every buffer `b` of at most
65533 bytes, `crc_16` returns a value `c` on `b`, and on `b` followed by the
two bytes `c >> 8`, `c & 0xFF` it returns 0. -/
theorem crc_16_residue (CRCPOLY : Nat) (b : List Nat) (hb : b.length ≤ 65533) :
    ∃ c, crc_16 (b.length + 1) CRCPOLY b (b.length : Int) = Run.done c ∧
      crc_16 (b.length + 3) CRCPOLY (b ++ [c >>> 8, c &&& 0xFF])
        ((b ++ [c >>> 8, c &&& 0xFF]).length : Int) = Run.done 0 := by
  refine ⟨_, crc_16_whole_buffer CRCPOLY b (by omega) _ (by omega), ?_⟩
  have hlen : ∀ x y : Nat, (b ++ [x, y]).length = b.length + 2 := by simp
  rw [crc_16_whole_buffer CRCPOLY _ (by rw [hlen]; omega) _ (by rw [hlen]; omega),
    crc_16_message_residue, crc_16_flush_zero]

/-- C15 (witness): "123456789" followed by its own checksum. -/
theorem crc_16_residue_witness :
    check_123456789.length ≤ 65533 ∧
      ∃ c, crc_16 (check_123456789.length + 1) 0x1021 check_123456789
          (check_123456789.length : Int) = Run.done c ∧
        crc_16 (check_123456789.length + 3) 0x1021 (check_123456789 ++ [c >>> 8, c &&& 0xFF])
          ((check_123456789 ++ [c >>> 8, c &&& 0xFF]).length : Int) = Run.done 0 :=
  ⟨by decide, crc_16_residue 0x1021 check_123456789 (by decide)⟩

/-- C16: non-positive length. For every polynomial, every buffer and every
`len ≤ 0`, `crc_16` returns, with fuel for one guard evaluation, the value it
returns on the empty buffer with `len = 0`, the initial register after the
flush loop; it returns it also when run with that `len` on the empty buffer,
where reading any cell is a fault: no cell is read. -/
theorem crc_16_nonpositive_len (CRCPOLY : Nat) (buf : List Nat) (len : Int) (fuel : Nat)
    (hlen : len ≤ 0) :
    crc_16 (fuel + 1) CRCPOLY buf len = crc_16 (fuel + 1) CRCPOLY [] 0 ∧
      crc_16 (fuel + 1) CRCPOLY [] len = crc_16 (fuel + 1) CRCPOLY [] 0 ∧
      crc_16 (fuel + 1) CRCPOLY [] 0 = Run.done (crc_16_flush CRCPOLY 16 0xFFFF) := by
  have hg : ¬ (((0 : Nat) : Int) < len) := by
    rw [Nat.cast_zero]; exact not_lt.mpr hlen
  have h0 : ¬ (((0 : Nat) : Int) < 0) := by simp
  have hrun : ∀ (l : List Nat) (n : Int), ¬ (((0 : Nat) : Int) < n) →
      crc_16 (fuel + 1) CRCPOLY l n = Run.done (crc_16_flush CRCPOLY 16 0xFFFF) := by
    intro l n hn
    unfold crc_16
    rw [crc_16_loop, if_neg hn]
  rw [hrun buf len hg, hrun [] len hg, hrun [] 0 h0]
  exact ⟨rfl, rfl, rfl⟩

/-- C16 (witness): `len = -3` on a two-byte buffer. -/
theorem crc_16_nonpositive_len_witness :
    (-3 : Int) ≤ 0 ∧
      (crc_16 (0 + 1) 0x1021 [0xAB, 0xCD] (-3) = crc_16 (0 + 1) 0x1021 [] 0 ∧
        crc_16 (0 + 1) 0x1021 [] (-3) = crc_16 (0 + 1) 0x1021 [] 0 ∧
        crc_16 (0 + 1) 0x1021 [] 0 = Run.done (crc_16_flush 0x1021 16 0xFFFF)) :=
  ⟨by decide, crc_16_nonpositive_len 0x1021 [0xAB, 0xCD] (-3) 0 (by decide)⟩

/-! ## Packing after unpacking -/

/-- C17: reverse round trip. For all bytes `b0 .. b3` and destinations of at
least four (respectively two) cells, `store32` of the value `grab32` reads
from `b0 b1 b2 b3` writes exactly these bytes to `dst[0..3]`, and `store16`
of the value `grab16` reads from `b0 b1` writes exactly `b0 b1`; the values
read are below `2^32` and `2^16`, and unpacking what was packed gives every
such value back: packing and unpacking are inverse to each other. -/
theorem grab_store_reverse_roundtrip (b0 b1 b2 b3 : Nat) (dst dst2 : List Nat)
    (h0 : b0 < 256) (h1 : b1 < 256) (h2 : b2 < 256) (h3 : b3 < 256)
    (hdst : 4 ≤ dst.length) (hdst2 : 2 ≤ dst2.length) :
    (∃ v, grab32 [b0, b1, b2, b3] = some v ∧ v < 2 ^ 32 ∧
        store32 v dst = some (b0 :: b1 :: b2 :: b3 :: dst.drop 4)) ∧
      (∃ w, grab16 [b0, b1] = some w ∧ w < 2 ^ 16 ∧
        store16 w dst2 = some (b0 :: b1 :: dst2.drop 2)) ∧
      (∀ v, v < 2 ^ 32 → (store32 v dst).bind grab32 = some v) ∧
      (∀ w, w < 2 ^ 16 → (store16 w dst2).bind grab16 = some w) := by
  obtain ⟨d0, d1, d2, d3, rest, rfl⟩ := buffer_four_cells dst hdst
  obtain ⟨e0, e1, rest2, rfl⟩ := buffer_two_cells dst2 hdst2
  refine ⟨⟨_, grab32_cons b0 b1 b2 b3 [], ?_, ?_⟩, ⟨_, grab16_cons b0 b1 [], ?_, ?_⟩, ?_, ?_⟩
  · omega
  · rw [store32_cons]
    simp only [Nat.shiftRight_eq_div_pow, List.drop_succ_cons, List.drop_zero]
    have e0 : (b0 % 256 + 2 ^ 8 * (b1 % 256) + 2 ^ 16 * (b2 % 256) + 2 ^ 24 * (b3 % 256)) % 256
        = b0 := by omega
    have e1 : (b0 % 256 + 2 ^ 8 * (b1 % 256) + 2 ^ 16 * (b2 % 256) + 2 ^ 24 * (b3 % 256))
        / 2 ^ 8 % 256 = b1 := by omega
    have e2 : (b0 % 256 + 2 ^ 8 * (b1 % 256) + 2 ^ 16 * (b2 % 256) + 2 ^ 24 * (b3 % 256))
        / 2 ^ 16 % 256 = b2 := by omega
    have e3 : (b0 % 256 + 2 ^ 8 * (b1 % 256) + 2 ^ 16 * (b2 % 256) + 2 ^ 24 * (b3 % 256))
        / 2 ^ 24 % 256 = b3 := by omega
    rw [e0, e1, e2, e3]
  · omega
  · rw [store16_cons]
    simp only [Nat.shiftRight_eq_div_pow, List.drop_succ_cons, List.drop_zero]
    have e0 : (b0 % 256 + 2 ^ 8 * (b1 % 256)) % 256 = b0 := by omega
    have e1 : (b0 % 256 + 2 ^ 8 * (b1 % 256)) % 2 ^ 16 / 2 ^ 8 % 256 = b1 := by omega
    rw [e0, e1]
  · intro v hv
    rw [store32_cons, Option.some_bind, grab32_cons]
    apply congrArg some
    simp only [Nat.shiftRight_eq_div_pow]
    omega
  · intro w hw
    rw [store16_cons, Option.some_bind, grab16_cons]
    apply congrArg some
    simp only [Nat.shiftRight_eq_div_pow]
    omega

/-- C17 (witness): the bytes `78 56 34 F2` and destinations with a cell to
spare. -/
theorem grab_store_reverse_roundtrip_witness :
    0x78 < 256 ∧ 0x56 < 256 ∧ 0x34 < 256 ∧ 0xF2 < 256 ∧
      4 ≤ [7, 7, 7, 7, 9].length ∧ 2 ≤ [7, 7, 9].length ∧
      ((∃ v, grab32 [0x78, 0x56, 0x34, 0xF2] = some v ∧ v < 2 ^ 32 ∧
          store32 v [7, 7, 7, 7, 9]
            = some (0x78 :: 0x56 :: 0x34 :: 0xF2 :: [7, 7, 7, 7, 9].drop 4)) ∧
        (∃ w, grab16 [0x78, 0x56] = some w ∧ w < 2 ^ 16 ∧
          store16 w [7, 7, 9] = some (0x78 :: 0x56 :: [7, 7, 9].drop 2)) ∧
        (∀ v, v < 2 ^ 32 → (store32 v [7, 7, 7, 7, 9]).bind grab32 = some v) ∧
        (∀ w, w < 2 ^ 16 → (store16 w [7, 7, 9]).bind grab16 = some w)) :=
  ⟨by decide, by decide, by decide, by decide, by decide, by decide,
    grab_store_reverse_roundtrip 0x78 0x56 0x34 0xF2 [7, 7, 7, 7, 9] [7, 7, 9]
      (by decide) (by decide) (by decide) (by decide) (by decide) (by decide)⟩

end Libfb
